/-
Verification of the timeline evaluation engine of the SJBS Parade Simulator
(src/utils/animationUtils.ts).

The engine is JavaScript working on IEEE-754 doubles.  We embed JS numbers as
an inductive `JsNum`: a finite value is carried as a real number (we do not
model overflow of the finite range), and the special values NaN, +Infinity and
-Infinity are explicit constructors.  Every arithmetic helper below implements
the JS semantics of the corresponding operator or `Math.*` builtin on those
values (NaN propagation, signed infinities, comparisons that are false on NaN,
`Number.isFinite`, falsiness of 0 and NaN, ...).

The evaluator itself (`getParadeStateAtTime`, `applyGroupTransform` and their
helpers) is a direct translation of src/utils/animationUtils.ts.  JS `Record`
objects are embedded as association lists in key-insertion order, `Map` as an
association list with `set`/`get` semantics, and the in-place mutation of the
`currentEntities` array as explicit state passing.  Fields of `Entity` and
`GroupMetadata` that the evaluator copies but never reads (`type`, `selected`,
`config`, ...) are omitted, except `label`, kept as a representative inert
payload field.
-/
import Mathlib

open scoped Classical

noncomputable section

/-- JS number: a finite double (carried as a real), an infinity, or NaN. -/
inductive JsNum where
  | fin (x : ℝ)
  | inf (neg : Bool)
  | nan

namespace JsNum

/-- JS `Number.isFinite`. -/
def jIsFinite : JsNum → Bool
  | fin _ => true
  | _ => false

/-- JS truthiness of a number: `0` and `NaN` are falsy, everything else truthy. -/
def jtruthy : JsNum → Bool
  | fin x => decide (x ≠ 0)
  | inf _ => true
  | nan => false

/-- JS unary minus. -/
def jneg : JsNum → JsNum
  | fin x => fin (-x)
  | inf b => inf (!b)
  | nan => nan

/-- JS `+` on numbers. -/
def jadd : JsNum → JsNum → JsNum
  | nan, _ => nan
  | _, nan => nan
  | fin x, fin y => fin (x + y)
  | fin _, inf b => inf b
  | inf b, fin _ => inf b
  | inf a, inf b => if a = b then inf a else nan

/-- JS `-` on numbers (`x - y = x + (-y)` in IEEE arithmetic). -/
def jsub (a b : JsNum) : JsNum := jadd a (jneg b)

/-- JS `*` on numbers. -/
def jmul : JsNum → JsNum → JsNum
  | nan, _ => nan
  | _, nan => nan
  | fin x, fin y => fin (x * y)
  | fin x, inf b => if x = 0 then nan else inf (xor (decide (x < 0)) b)
  | inf b, fin x => if x = 0 then nan else inf (xor b (decide (x < 0)))
  | inf a, inf b => inf (xor a b)

/-- JS `/` on numbers. -/
def jdiv : JsNum → JsNum → JsNum
  | nan, _ => nan
  | _, nan => nan
  | fin x, fin y =>
      if y = 0 then (if x = 0 then nan else inf (decide (x < 0))) else fin (x / y)
  | fin _, inf _ => fin 0
  | inf a, fin y => inf (xor a (decide (y < 0)))
  | inf _, inf _ => nan

/-- JS `Math.min`: NaN-propagating minimum. -/
def jmin : JsNum → JsNum → JsNum
  | nan, _ => nan
  | _, nan => nan
  | fin x, fin y => fin (min x y)
  | fin x, inf b => if b then inf true else fin x
  | inf b, fin x => if b then inf true else fin x
  | inf a, inf b => inf (a || b)

/-- JS `Math.max`: NaN-propagating maximum. -/
def jmax : JsNum → JsNum → JsNum
  | nan, _ => nan
  | _, nan => nan
  | fin x, fin y => fin (max x y)
  | fin x, inf b => if b then fin x else inf false
  | inf b, fin x => if b then fin x else inf false
  | inf a, inf b => inf (a && b)

/-- JS `<` (false whenever an operand is NaN). -/
def jltb : JsNum → JsNum → Bool
  | nan, _ => false
  | _, nan => false
  | fin x, fin y => decide (x < y)
  | fin _, inf b => !b
  | inf b, fin _ => b
  | inf a, inf b => a && !b

/-- JS `<=` (false whenever an operand is NaN). -/
def jleb : JsNum → JsNum → Bool
  | nan, _ => false
  | _, nan => false
  | fin x, fin y => decide (x ≤ y)
  | fin _, inf b => !b
  | inf b, fin _ => b
  | inf a, inf b => a || !b

/-- JS `===` on numbers (false whenever an operand is NaN). -/
def jeqb : JsNum → JsNum → Bool
  | nan, _ => false
  | _, nan => false
  | fin x, fin y => decide (x = y)
  | inf a, inf b => a == b
  | fin _, inf _ => false
  | inf _, fin _ => false

/-- JS `Math.abs`. -/
def jabs : JsNum → JsNum
  | fin x => fin |x|
  | inf _ => inf false
  | nan => nan

/-- JS `Math.sqrt` (NaN on negative input). -/
def jsqrt : JsNum → JsNum
  | fin x => if x < 0 then nan else fin (Real.sqrt x)
  | inf false => inf false
  | inf true => nan
  | nan => nan

/-- JS `Math.pow (x, 2)`, which agrees with `x * x` on all JS numbers. -/
def jpow2 (a : JsNum) : JsNum := jmul a a

/-- JS `Math.cos` (NaN on NaN and on infinities). -/
def jcos : JsNum → JsNum
  | fin x => fin (Real.cos x)
  | _ => nan

/-- JS `Math.sin` (NaN on NaN and on infinities). -/
def jsin : JsNum → JsNum
  | fin x => fin (Real.sin x)
  | _ => nan

@[simp] theorem jIsFinite_fin (x : ℝ) : jIsFinite (fin x) = true := rfl
@[simp] theorem jIsFinite_nan : jIsFinite nan = false := rfl
@[simp] theorem jIsFinite_inf (b : Bool) : jIsFinite (inf b) = false := rfl

theorem jIsFinite_iff {a : JsNum} : jIsFinite a = true ↔ ∃ x : ℝ, a = fin x := by
  cases a <;> simp [jIsFinite]

@[simp] theorem jadd_fin (x y : ℝ) : jadd (fin x) (fin y) = fin (x + y) := rfl
@[simp] theorem jadd_nan_left (a : JsNum) : jadd nan a = nan := by
  cases a <;> rfl
@[simp] theorem jadd_nan_right (a : JsNum) : jadd a nan = nan := by
  cases a <;> rfl
@[simp] theorem jneg_fin (x : ℝ) : jneg (fin x) = fin (-x) := rfl
@[simp] theorem jsub_fin (x y : ℝ) : jsub (fin x) (fin y) = fin (x + -y) := rfl
@[simp] theorem jsub_nan_left (a : JsNum) : jsub nan a = nan := by
  cases a <;> rfl
@[simp] theorem jsub_nan_right (a : JsNum) : jsub a nan = nan := by
  cases a <;> rfl
@[simp] theorem jmul_fin (x y : ℝ) : jmul (fin x) (fin y) = fin (x * y) := rfl
@[simp] theorem jmul_nan_left (a : JsNum) : jmul nan a = nan := by
  cases a <;> rfl
@[simp] theorem jmul_nan_right (a : JsNum) : jmul a nan = nan := by
  cases a <;> rfl
@[simp] theorem jmin_fin (x y : ℝ) : jmin (fin x) (fin y) = fin (min x y) := rfl
@[simp] theorem jmax_fin (x y : ℝ) : jmax (fin x) (fin y) = fin (max x y) := rfl
@[simp] theorem jltb_fin (x y : ℝ) : jltb (fin x) (fin y) = decide (x < y) := rfl
@[simp] theorem jleb_fin (x y : ℝ) : jleb (fin x) (fin y) = decide (x ≤ y) := rfl
@[simp] theorem jeqb_fin (x y : ℝ) : jeqb (fin x) (fin y) = decide (x = y) := rfl
@[simp] theorem jabs_fin (x : ℝ) : jabs (fin x) = fin |x| := rfl
@[simp] theorem jcos_fin (x : ℝ) : jcos (fin x) = fin (Real.cos x) := rfl
@[simp] theorem jsin_fin (x : ℝ) : jsin (fin x) = fin (Real.sin x) := rfl
@[simp] theorem jcos_nan : jcos nan = nan := rfl
@[simp] theorem jsin_nan : jsin nan = nan := rfl

theorem jdiv_fin_of_ne (x : ℝ) {y : ℝ} (h : y ≠ 0) :
    jdiv (fin x) (fin y) = fin (x / y) := by
  simp [jdiv, h]

@[simp] theorem jdiv_fin (x y : ℝ) (h : y ≠ 0) : jdiv (fin x) (fin y) = fin (x / y) :=
  jdiv_fin_of_ne x h

@[simp] theorem jmin_posinf_fin (x : ℝ) : jmin (inf false) (fin x) = fin x := rfl
@[simp] theorem jmax_neginf_fin (x : ℝ) : jmax (inf true) (fin x) = fin x := rfl
@[simp] theorem jltb_fin_posinf (x : ℝ) : jltb (fin x) (inf false) = true := rfl
@[simp] theorem jltb_neginf_fin (x : ℝ) : jltb (inf true) (fin x) = true := rfl
@[simp] theorem jltb_fin_neginf (x : ℝ) : jltb (fin x) (inf true) = false := rfl
@[simp] theorem jltb_posinf_fin (x : ℝ) : jltb (inf false) (fin x) = false := rfl
@[simp] theorem jtruthy_fin (x : ℝ) : jtruthy (fin x) = decide (x ≠ 0) := rfl
@[simp] theorem jtruthy_nan : jtruthy nan = false := rfl

@[simp] theorem jsqrt_fin (x : ℝ) (h : 0 ≤ x) : jsqrt (fin x) = fin (Real.sqrt x) := by
  simp [jsqrt, not_lt.mpr h]

@[simp] theorem jpow2_fin (x : ℝ) : jpow2 (fin x) = fin (x * x) := rfl

end JsNum

open JsNum

/-! ## Data model (src/types.ts, fields read by the evaluator) -/

/-- Field `AnimationAction.type`. -/
inductive ActionType where
  | MOVE | TURN | WHEEL
deriving DecidableEq

/-- Field `payload.movePathMode`. -/
inductive MovePathMode where
  | DIRECT | ORTHOGONAL
deriving DecidableEq

/-- Field `payload.orthogonalOrder`. -/
inductive OrthogonalOrder where
  | X_THEN_Y | Y_THEN_X
deriving DecidableEq

/-- Field `payload.groupAnchor`: one of the nine anchor codes. -/
inductive AnchorPosition where
  | TL | TM | TR | CL | C | CR | BL | BM | BR
deriving DecidableEq

/-- Field `payload.pivotCorner` for WHEEL. -/
inductive PivotCorner where
  | TL | TR | BL | BR | CENTER
deriving DecidableEq

/-- Field `payload.waypoint`. -/
structure Waypoint where
  x : JsNum
  y : JsNum

/-- Record `AnimationAction.payload`; `none` stands for a JS `undefined` field. -/
structure ActionPayload where
  targetX : Option JsNum := none
  targetY : Option JsNum := none
  targetRotation : Option JsNum := none
  wheelAngle : Option JsNum := none
  pivotCorner : Option PivotCorner := none
  movePathMode : Option MovePathMode := none
  orthogonalOrder : Option OrthogonalOrder := none
  waypoint : Option Waypoint := none
  groupAnchor : Option AnchorPosition := none

/-- Record `AnimationAction`. -/
structure AnimationAction where
  id : String
  type : ActionType
  startTime : JsNum
  duration : JsNum
  payload : ActionPayload

/-- Record `AnimationTrack` (the evaluator reads only `actions`). -/
structure AnimationTrack where
  actions : List AnimationAction

/-- Record `Entity`, restricted to the fields the evaluator reads or writes, plus
`label` as a representative inert payload field that is only copied. -/
structure Entity where
  id : String
  label : String
  x : JsNum
  y : JsNum
  rotation : JsNum
  groupId : Option String

/-- Record `GroupMetadata`, restricted to the fields relevant to the evaluator
(it only value-copies groups). -/
structure GroupMetadata where
  id : String
  label : String
  rotation : JsNum

/-- The part of `ParadeState` the evaluator consumes.  The JS `Record`s
`groups` and `animation.tracks` are embedded as association lists in
key-insertion order (JS object keys cannot repeat; `Object.keys` iterates in
insertion order). -/
structure ParadeState where
  entities : List Entity
  groups : List (String × GroupMetadata)
  tracks : List (String × AnimationTrack)

/-! ## Helpers shared by the evaluator -/

/-- Expression `Number.isFinite(v) ? v : dflt` on an optional payload field
(`Number.isFinite(undefined)` is false). -/
def getFiniteOr (v : Option JsNum) (dflt : JsNum) : JsNum :=
  match v with
  | some (.fin x) => .fin x
  | _ => dflt

/-- Expression `Number.isFinite(v) ? v : 0`. -/
def sanitize (v : JsNum) : JsNum :=
  if jIsFinite v then v else .fin 0

@[simp] theorem sanitize_fin (x : ℝ) : sanitize (.fin x) = .fin x := rfl
@[simp] theorem sanitize_nan : sanitize .nan = .fin 0 := rfl
@[simp] theorem sanitize_inf (b : Bool) : sanitize (.inf b) = .fin 0 := rfl

@[simp] theorem getFiniteOr_some_fin (x : ℝ) (d : JsNum) :
    getFiniteOr (some (.fin x)) d = .fin x := rfl
@[simp] theorem getFiniteOr_none (d : JsNum) : getFiniteOr none d = d := rfl
@[simp] theorem getFiniteOr_some_nan (d : JsNum) : getFiniteOr (some .nan) d = d := rfl
@[simp] theorem getFiniteOr_some_inf (b : Bool) (d : JsNum) :
    getFiniteOr (some (.inf b)) d = d := rfl

/-- Expression `action.payload.wheelAngle || 90` (JS `||`: `0` and `NaN` are falsy,
infinities are truthy). -/
def wheelAngleOf (p : ActionPayload) : JsNum :=
  match p.wheelAngle with
  | some a => if jtruthy a then a else .fin 90
  | none => .fin 90

/-- Expression `Math.max(0.001, action.duration)` (line 57 and line 180). -/
def effDuration (duration : JsNum) : JsNum := jmax (.fin 0.001) duration

/-- The `lerp` helper (lines 5-10):
`s = isFinite start ? start : 0; e = isFinite end ? end : s;`
`ratio = max(0, min(1, t)); s + (e - s) * ratio`. -/
def lerp (start endv t : JsNum) : JsNum :=
  let s := if jIsFinite start then start else .fin 0
  let e := if jIsFinite endv then endv else s
  let ratio := jmax (.fin 0) (jmin (.fin 1) t)
  jadd s (jmul (jsub e s) ratio)

/-- Comparator-induced order of `[...track.actions].sort((a, b) => a.startTime - b.startTime)`:
`a` may stay before `b` iff the comparator result is not `> 0`
(on NaN the comparator result is treated as 0, keeping the original order). -/
def actionLe (a b : AnimationAction) : Bool :=
  !(jltb (.fin 0) (jsub a.startTime b.startTime))

/-- Stable insertion of an action into an already sorted list. -/
def insertAction (a : AnimationAction) : List AnimationAction → List AnimationAction
  | [] => [a]
  | b :: l => if actionLe a b then a :: b :: l else b :: insertAction a l

/-- Model of `[...track.actions].sort((a, b) => a.startTime - b.startTime)`: JS sort is
stable and a stable sort is unique, so insertion sort is an exact model. -/
def sortActions (l : List AnimationAction) : List AnimationAction :=
  l.foldr insertAction []

/-- First entity with the given id (`entities.find(e => e.id === ownerId)`). -/
def findFirst : List Entity → String → Option Entity
  | [], _ => none
  | e :: es, oid => if e.id = oid then some e else findFirst es oid

/-- Replace the first entity with the given id by `f` of it (the mutation of
the object returned by `entities.find`). -/
def setEntityFirst : List Entity → String → (Entity → Entity) → List Entity
  | [], _, _ => []
  | e :: es, oid, f => if e.id = oid then f e :: es else e :: setEntityFirst es oid f

/-! ## Entity track evaluation (lines 42-155) -/

/-- The running `(currentX, currentY, currentRot)` trackers. -/
structure EntitySt where
  x : JsNum
  y : JsNum
  rot : JsNum

/-- The MOVE position logic of a single-entity action (lines 66-129), from the
running start position at clamped progress. -/
def entityMovePosition (payload : ActionPayload) (startX startY clampedProgress : JsNum) :
    JsNum × JsNum :=
  let targetX := getFiniteOr payload.targetX startX
  let targetY := getFiniteOr payload.targetY startY
  match payload.waypoint with
  | some w =>
    let wx := if jIsFinite w.x then w.x else startX
    let wy := if jIsFinite w.y then w.y else startY
    let d1 := jsqrt (jadd (jpow2 (jsub wx startX)) (jpow2 (jsub wy startY)))
    let d2 := jsqrt (jadd (jpow2 (jsub targetX wx)) (jpow2 (jsub targetY wy)))
    let totalDist := jadd d1 d2
    if jleb totalDist (.fin 0.001) then (targetX, targetY)
    else
      let splitPoint := jdiv d1 totalDist
      if jleb clampedProgress splitPoint then
        let p := if jeqb splitPoint (.fin 0) then .fin 1 else jdiv clampedProgress splitPoint
        (lerp startX wx p, lerp startY wy p)
      else
        let p := jdiv (jsub clampedProgress splitPoint) (jsub (.fin 1) splitPoint)
        (lerp wx targetX p, lerp wy targetY p)
  | none =>
    match payload.movePathMode with
    | some .DIRECT =>
        (lerp startX targetX clampedProgress, lerp startY targetY clampedProgress)
    | _ =>
      -- Orthogonal
      let distX := jsub targetX startX
      let distY := jsub targetY startY
      let totalDist := jadd (jabs distX) (jabs distY)
      if jleb totalDist (.fin 0.001) then (targetX, targetY)
      else
        let fracX := jdiv (jabs distX) totalDist
        match payload.orthogonalOrder with
        | some .Y_THEN_X =>
          let fracY := jdiv (jabs distY) totalDist
          if jltb clampedProgress fracY then
            (startX, lerp startY targetY (jdiv clampedProgress fracY))
          else
            (lerp startX targetX (jdiv (jsub clampedProgress fracY) (jsub (.fin 1) fracY)),
             targetY)
        | _ =>
          -- X Then Y
          if jltb clampedProgress fracX then
            (lerp startX targetX (jdiv clampedProgress fracX), startY)
          else
            (targetX, lerp startY targetY (jdiv (jsub clampedProgress fracX) (jsub (.fin 1) fracX)))

/-- One iteration of the single-entity action loop body (lines 57-149). -/
def applyEntityAction (time : JsNum) (action : AnimationAction) (s : EntitySt) : EntitySt :=
  let duration := effDuration action.duration
  let progress := jdiv (jsub time action.startTime) duration
  let clampedProgress := jmax (.fin 0) (jmin (.fin 1) progress)
  match action.type with
  | .MOVE =>
    let pos := entityMovePosition action.payload s.x s.y clampedProgress
    { s with x := pos.1, y := pos.2 }
  | .TURN =>
    let targetRot := getFiniteOr action.payload.targetRotation s.rot
    { s with rot := lerp s.rot targetRot clampedProgress }
  | .WHEEL =>
    -- the computed `rad`/`cos`/`sin` locals are dead for a single entity;
    -- only `currentRot += angle * clampedProgress` has an effect (line 148)
    let angle := wheelAngleOf action.payload
    { s with rot := jadd s.rot (jmul angle clampedProgress) }

/-- The single-entity action loop (lines 51-150): walk the sorted actions,
breaking at the first action with `time < action.startTime`. -/
def runEntityActions (time : JsNum) : List AnimationAction → EntitySt → EntitySt
  | [], s => s
  | a :: rest, s =>
    if jltb time a.startTime then s
    else runEntityActions time rest (applyEntityAction time a s)

/-! ## Group track evaluation (`applyGroupTransform`, lines 162-332) -/

/-- A `memberState` entry. -/
structure MemberSt where
  x : JsNum
  y : JsNum
  rot : JsNum

/-- JS `Map.set`: overwrite in place if the key exists, else append. -/
def msSet (m : List (String × MemberSt)) (k : String) (v : MemberSt) :
    List (String × MemberSt) :=
  if m.any (fun p => p.1 = k) then
    m.map (fun p => if p.1 = k then (k, v) else p)
  else m ++ [(k, v)]

/-- JS `Map.get`. -/
def msGet : List (String × MemberSt) → String → Option MemberSt
  | [], _ => none
  | p :: m, k => if p.1 = k then some p.2 else msGet m k

/-- Bounding box of the current member states for a group MOVE
(lines 185-193): strict `<`/`>` comparisons (which skip NaN entries), starting
from `±Infinity`, then reset to zeros if the result is not finite. -/
def groupMoveBox (ms : List (String × MemberSt)) : JsNum × JsNum × JsNum × JsNum :=
  let minX := ms.foldl (fun acc p => if jltb p.2.x acc then p.2.x else acc) (.inf false)
  let maxX := ms.foldl (fun acc p => if jltb acc p.2.x then p.2.x else acc) (.inf true)
  let minY := ms.foldl (fun acc p => if jltb p.2.y acc then p.2.y else acc) (.inf false)
  let maxY := ms.foldl (fun acc p => if jltb acc p.2.y then p.2.y else acc) (.inf true)
  if !jIsFinite minX then (.fin 0, .fin 0, .fin 0, .fin 0) else (minX, maxX, minY, maxY)

/-- Anchor start point selection for a group MOVE (lines 195-204), translating
the `anchorType.includes(...)` string tests on each of the nine codes. -/
def anchorIncludesM : AnchorPosition → Bool
  | .TM | .BM => true
  | _ => false

/-- Test `anchorType.includes('R')`. -/
def anchorIncludesR : AnchorPosition → Bool
  | .TR | .CR | .BR => true
  | _ => false

/-- Test `anchorType.includes('C')`. -/
def anchorIncludesC : AnchorPosition → Bool
  | .C | .CL | .CR => true
  | _ => false

/-- Test `anchorType.includes('CL')`. -/
def anchorIncludesCL : AnchorPosition → Bool
  | .CL => true
  | _ => false

/-- Test `anchorType.includes('CR')`. -/
def anchorIncludesCR : AnchorPosition → Bool
  | .CR => true
  | _ => false

/-- Test `anchorType.includes('B')`. -/
def anchorIncludesB : AnchorPosition → Bool
  | .BL | .BM | .BR => true
  | _ => false

/-- Lines 196-204: select the anchor start point from the bounding box. -/
def groupMoveAnchorStart (anchorType : AnchorPosition)
    (minX maxX minY maxY : JsNum) : JsNum × JsNum :=
  let midX := jdiv (jadd minX maxX) (.fin 2)
  let midY := jdiv (jadd minY maxY) (.fin 2)
  let startAnchorX := minX
  let startAnchorY := minY
  let startAnchorX := if anchorIncludesM anchorType || anchorType = .C then midX else startAnchorX
  let startAnchorX := if anchorIncludesR anchorType then maxX else startAnchorX
  let startAnchorY :=
    if anchorIncludesC anchorType || anchorIncludesCL anchorType || anchorIncludesCR anchorType
    then midY else startAnchorY
  let startAnchorY := if anchorIncludesB anchorType then maxY else startAnchorY
  (startAnchorX, startAnchorY)

/-- Anchor path interpolation of a group MOVE (lines 209-259).  Unlike the
single-entity MOVE, the degenerate branches leave the anchor at its start
(there is no snap-to-target `else`). -/
def groupMoveAnchorPos (payload : ActionPayload)
    (startAnchorX startAnchorY targetX targetY progress : JsNum) : JsNum × JsNum :=
  match payload.waypoint with
  | some w =>
    let wx := if jIsFinite w.x then w.x else startAnchorX
    let wy := if jIsFinite w.y then w.y else startAnchorY
    let d1 := jsqrt (jadd (jpow2 (jsub wx startAnchorX)) (jpow2 (jsub wy startAnchorY)))
    let d2 := jsqrt (jadd (jpow2 (jsub targetX wx)) (jpow2 (jsub targetY wy)))
    let total := jadd d1 d2
    if jltb (.fin 0.001) total then
      let split := jdiv d1 total
      if jleb progress split then
        let p := if jeqb split (.fin 0) then .fin 1 else jdiv progress split
        (lerp startAnchorX wx p, lerp startAnchorY wy p)
      else
        let p := jdiv (jsub progress split) (jsub (.fin 1) split)
        (lerp wx targetX p, lerp wy targetY p)
    else (startAnchorX, startAnchorY)
  | none =>
    match payload.movePathMode with
    | some .DIRECT =>
        (lerp startAnchorX targetX progress, lerp startAnchorY targetY progress)
    | _ =>
      -- Orthogonal
      let dx := jsub targetX startAnchorX
      let dy := jsub targetY startAnchorY
      let td := jadd (jabs dx) (jabs dy)
      if jltb (.fin 0.001) td then
        let fx := jdiv (jabs dx) td
        match payload.orthogonalOrder with
        | some .Y_THEN_X =>
          let fy := jdiv (jabs dy) td
          if jltb progress fy then
            (startAnchorX, lerp startAnchorY targetY (jdiv progress fy))
          else
            (lerp startAnchorX targetX (jdiv (jsub progress fy) (jsub (.fin 1) fy)), targetY)
        | _ =>
          if jltb progress fx then
            (lerp startAnchorX targetX (jdiv progress fx), startAnchorY)
          else
            (targetX, lerp startAnchorY targetY (jdiv (jsub progress fx) (jsub (.fin 1) fx)))
      else (startAnchorX, startAnchorY)

/-- Bounding box for a group WHEEL (lines 290-297): `Math.min`/`Math.max`
(which propagate NaN), then reset to zeros if not finite. -/
def groupWheelBox (ms : List (String × MemberSt)) : JsNum × JsNum × JsNum × JsNum :=
  let minX := ms.foldl (fun acc p => jmin acc p.2.x) (.inf false)
  let maxX := ms.foldl (fun acc p => jmax acc p.2.x) (.inf true)
  let minY := ms.foldl (fun acc p => jmin acc p.2.y) (.inf false)
  let maxY := ms.foldl (fun acc p => jmax acc p.2.y) (.inf true)
  if !jIsFinite minX then (.fin 0, .fin 0, .fin 0, .fin 0) else (minX, maxX, minY, maxY)

/-- Pivot selection for a group WHEEL (lines 299-310). -/
def wheelPivot (pc : Option PivotCorner) (minX maxX minY maxY : JsNum) : JsNum × JsNum :=
  match pc with
  | some .CENTER => (jdiv (jadd minX maxX) (.fin 2), jdiv (jadd minY maxY) (.fin 2))
  | some .BL => (minX, maxY)
  | some .BR => (maxX, maxY)
  | some .TR => (maxX, minY)
  | _ => (minX, minY)

/-- The per-member update of a group MOVE (lines 265-268), parametrized by the
uniform delta computed before the loop. -/
def moveShift (deltaX deltaY : JsNum) (s : MemberSt) : MemberSt :=
  { s with x := jadd s.x deltaX, y := jadd s.y deltaY }

/-- The per-member update of a group TURN (lines 278-280). -/
def turnShift (deltaRot : JsNum) (s : MemberSt) : MemberSt :=
  { s with rot := jadd s.rot deltaRot }

/-- The per-member update of a group WHEEL (lines 312-319), parametrized by
the pivot, `cos rad`, `sin rad`, angle and progress computed before the
loop. -/
def wheelShift (pivotX pivotY c sn angle progress : JsNum) (s : MemberSt) : MemberSt :=
  let dx := jsub s.x pivotX
  let dy := jsub s.y pivotY
  { x := jadd pivotX (jsub (jmul dx c) (jmul dy sn)),
    y := jadd pivotY (jadd (jmul dx sn) (jmul dy c)),
    rot := jadd s.rot (jmul angle progress) }

/-- One iteration of the group action loop body (lines 180-320). -/
def applyGroupAction (time : JsNum) (action : AnimationAction)
    (ms : List (String × MemberSt)) : List (String × MemberSt) :=
  let duration := effDuration action.duration
  let progress := jmin (.fin 1) (jmax (.fin 0) (jdiv (jsub time action.startTime) duration))
  match action.type with
  | .MOVE =>
    let box := groupMoveBox ms
    let anchorType := (action.payload.groupAnchor).getD .TL
    let anchor := groupMoveAnchorStart anchorType box.1 box.2.1 box.2.2.1 box.2.2.2
    let targetX := getFiniteOr action.payload.targetX anchor.1
    let targetY := getFiniteOr action.payload.targetY anchor.2
    let cur := groupMoveAnchorPos action.payload anchor.1 anchor.2 targetX targetY progress
    let deltaX := jsub cur.1 anchor.1
    let deltaY := jsub cur.2 anchor.2
    if jIsFinite deltaX && jIsFinite deltaY then
      ms.map (fun p => (p.1, moveShift deltaX deltaY p.2))
    else ms
  | .TURN =>
    let startRot := match ms with
      | [] => .fin 0
      | p :: _ => p.2.rot
    let targetRot := getFiniteOr action.payload.targetRotation startRot
    let deltaRot := jmul (jsub targetRot startRot) progress
    if jIsFinite deltaRot then
      ms.map (fun p => (p.1, turnShift deltaRot p.2))
    else ms
  | .WHEEL =>
    let angle := wheelAngleOf action.payload
    let rad := jmul (jmul angle (jdiv (.fin Real.pi) (.fin 180))) progress
    let c := jcos rad
    let s := jsin rad
    let box := groupWheelBox ms
    let pivot := wheelPivot action.payload.pivotCorner box.1 box.2.1 box.2.2.1 box.2.2.2
    ms.map (fun p => (p.1, wheelShift pivot.1 pivot.2 c s angle progress p.2))

/-- The group action loop (lines 177-321), breaking at the first action with
`time < action.startTime`. -/
def runGroupActions (time : JsNum) : List AnimationAction → List (String × MemberSt) →
    List (String × MemberSt)
  | [], ms => ms
  | a :: rest, ms =>
    if jltb time a.startTime then ms
    else runGroupActions time rest (applyGroupAction time a ms)

/-- Function `applyGroupTransform` (lines 162-332): seed a member map from the current
entities (sanitizing non-finite fields), run the actions, and write the result
back into the member entities with per-field finiteness guards. -/
def applyGroupTransform (entities : List Entity) (groupId : String)
    (actions : List AnimationAction) (time : JsNum) : List Entity :=
  let members := entities.filter (fun e => e.groupId = some groupId)
  if members.isEmpty then entities
  else
    let memberState := members.foldl
      (fun m e => msSet m e.id
        { x := sanitize e.x, y := sanitize e.y, rot := sanitize e.rotation }) []
    let finalState := runGroupActions time actions memberState
    entities.map (fun m =>
      if m.groupId = some groupId then
        match msGet finalState m.id with
        | some st =>
          { m with
            x := if jIsFinite st.x then st.x else m.x,
            y := if jIsFinite st.y then st.y else m.y,
            rotation := if jIsFinite st.rot then st.rot else m.rotation }
        | none => m
      else m)

/-! ## Top-level evaluation (`getParadeStateAtTime`, lines 13-159) -/

/-- Record access `baseState.groups[ownerId]` on the association-list
embedding of the `groups` object. -/
def lookupGroup : List (String × GroupMetadata) → String → Option GroupMetadata
  | [], _ => none
  | p :: gs, k => if p.1 = k then some p.2 else lookupGroup gs k

@[simp] theorem lookupGroup_nil (k : String) : lookupGroup [] k = none := rfl

@[simp] theorem lookupGroup_cons (p : String × GroupMetadata)
    (gs : List (String × GroupMetadata)) (k : String) :
    lookupGroup (p :: gs) k = if p.1 = k then some p.2 else lookupGroup gs k := rfl

/-- Process one track against the running entity array (the body of the
`trackIds.forEach` loop, lines 27-156). -/
def processTrack (baseGroups : List (String × GroupMetadata)) (time : JsNum)
    (es : List Entity) (tk : String × AnimationTrack) : List Entity :=
  let ownerId := tk.1
  let track := tk.2
  if track.actions.isEmpty then es
  else
    let actions := sortActions track.actions
    let isGroup := (lookupGroup baseGroups ownerId).isSome
    if isGroup then applyGroupTransform es ownerId actions time
    else
      match findFirst es ownerId with
      | none => es   -- Track exists for non-existent entity, skip
      | some entity =>
        let final := runEntityActions time actions
          { x := entity.x, y := entity.y, rot := entity.rotation }
        setEntityFirst es ownerId (fun e0 =>
          { e0 with
            x := if jIsFinite final.x then final.x else e0.x,
            y := if jIsFinite final.y then final.y else e0.y,
            rotation := if jIsFinite final.rot then final.rot else e0.rotation })

/-- Function `getParadeStateAtTime`: sanitize a copy of the base entities, value-copy
the groups, process every track in key order, and return the new snapshot. -/
def getParadeStateAtTime (baseState : ParadeState) (time : JsNum) :
    List Entity × List (String × GroupMetadata) :=
  let currentEntities := baseState.entities.map (fun e =>
    { e with x := sanitize e.x, y := sanitize e.y, rotation := sanitize e.rotation })
  let currentGroups := baseState.groups
  (baseState.tracks.foldl (processTrack baseState.groups time) currentEntities, currentGroups)

/-! ## Claim theorems -/

/-- C7.  Anchor resolution: for a group MOVE, each of the nine anchor codes
selects exactly the specified combination of the members' bounding box
coordinates — TL→(minX,minY), TM→(midX,minY), TR→(maxX,minY), CL→(minX,midY),
C→(midX,midY), CR→(maxX,midY), BL→(minX,maxY), BM→(midX,maxY), BR→(maxX,maxY)
— as the anchor's start point (where midX/midY are the box midpoints
`(min + max) / 2`). -/
theorem c7_anchor_resolution (minX maxX minY maxY : JsNum) :
    groupMoveAnchorStart .TL minX maxX minY maxY = (minX, minY) ∧
    groupMoveAnchorStart .TM minX maxX minY maxY =
      (jdiv (jadd minX maxX) (.fin 2), minY) ∧
    groupMoveAnchorStart .TR minX maxX minY maxY = (maxX, minY) ∧
    groupMoveAnchorStart .CL minX maxX minY maxY =
      (minX, jdiv (jadd minY maxY) (.fin 2)) ∧
    groupMoveAnchorStart .C minX maxX minY maxY =
      (jdiv (jadd minX maxX) (.fin 2), jdiv (jadd minY maxY) (.fin 2)) ∧
    groupMoveAnchorStart .CR minX maxX minY maxY =
      (maxX, jdiv (jadd minY maxY) (.fin 2)) ∧
    groupMoveAnchorStart .BL minX maxX minY maxY = (minX, maxY) ∧
    groupMoveAnchorStart .BM minX maxX minY maxY =
      (jdiv (jadd minX maxX) (.fin 2), maxY) ∧
    groupMoveAnchorStart .BR minX maxX minY maxY = (maxX, maxY) := by
  refine ⟨?_, ?_, ?_, ?_, ?_, ?_, ?_, ?_, ?_⟩ <;>
    simp [groupMoveAnchorStart, anchorIncludesM, anchorIncludesR, anchorIncludesC,
      anchorIncludesCL, anchorIncludesCR, anchorIncludesB]

/-- C8.  For every action with duration ≤ 0 the effective duration is
clamped to the positive epsilon 0.001 (so the progress division never divides
by zero), and for every query time `t ≥ startTime + 0.001` both the
single-entity clamped progress (line 58-59) and the group progress (line 181)
are exactly 1, and the loop does not break at this action
(`time < startTime` is false), i.e. the action is applied as an instantaneous
action at its start time. -/
theorem c8_nonpositive_duration (d s t : ℝ) (hd : d ≤ 0) (ht : s + 0.001 ≤ t) :
    effDuration (.fin d) = .fin 0.001 ∧ (0 : ℝ) < 0.001 ∧
    jltb (.fin t) (.fin s) = false ∧
    jmax (.fin 0) (jmin (.fin 1) (jdiv (jsub (.fin t) (.fin s)) (effDuration (.fin d)))) =
      .fin 1 ∧
    jmin (.fin 1) (jmax (.fin 0) (jdiv (jsub (.fin t) (.fin s)) (effDuration (.fin d)))) =
      .fin 1 := by
  have heff : effDuration (.fin d) = .fin 0.001 := by
    simp [effDuration]
    norm_num
    linarith
  have hts : ¬ t < s := by norm_num at ht ⊢; linarith
  have h1 : jdiv (jsub (.fin t) (.fin s)) (.fin 0.001) = .fin ((t + -s) / 0.001) := by
    rw [jsub_fin]
    exact jdiv_fin_of_ne _ (by norm_num)
  have h2 : (1 : ℝ) ≤ (t + -s) / 0.001 := by
    rw [le_div_iff₀ (by norm_num)]
    linarith
  refine ⟨heff, by norm_num, by simp [hts], ?_, ?_⟩
  · rw [heff, h1, jmin_fin, min_eq_left h2, jmax_fin]
    norm_num
  · rw [heff, h1, jmax_fin, max_eq_right (le_trans zero_le_one h2), jmin_fin,
      min_eq_left h2]

/-- C10.  For every WHEEL action — single entity or group — whose payload
`wheelAngle` is exactly 0 (or NaN), evaluation uses an angle of 90 instead:
the defaulting expression `wheelAngle || 90` yields 90 on those falsy values,
and the entity- and group-level action evaluation with such a payload is
identical to evaluation with `wheelAngle = 90` (headings, and for groups also
positions about the pivot, rotate by 90 times the progress). -/
theorem c10_wheel_angle_default (p : ActionPayload) :
    wheelAngleOf { p with wheelAngle := some (.fin 0) } = .fin 90 ∧
    wheelAngleOf { p with wheelAngle := some .nan } = .fin 90 ∧
    (∀ (i : String) (ty : ActionType) (st du time : JsNum) (s : EntitySt),
      applyEntityAction time
          { id := i, type := ty, startTime := st, duration := du,
            payload := { p with wheelAngle := some (.fin 0) } } s =
        applyEntityAction time
          { id := i, type := ty, startTime := st, duration := du,
            payload := { p with wheelAngle := some (.fin 90) } } s) ∧
    (∀ (i : String) (ty : ActionType) (st du time : JsNum)
        (ms : List (String × MemberSt)),
      applyGroupAction time
          { id := i, type := ty, startTime := st, duration := du,
            payload := { p with wheelAngle := some (.fin 0) } } ms =
        applyGroupAction time
          { id := i, type := ty, startTime := st, duration := du,
            payload := { p with wheelAngle := some (.fin 90) } } ms) ∧
    (∀ (i : String) (ty : ActionType) (st du time : JsNum) (s : EntitySt),
      applyEntityAction time
          { id := i, type := ty, startTime := st, duration := du,
            payload := { p with wheelAngle := some .nan } } s =
        applyEntityAction time
          { id := i, type := ty, startTime := st, duration := du,
            payload := { p with wheelAngle := some (.fin 90) } } s) ∧
    (∀ (i : String) (ty : ActionType) (st du time : JsNum)
        (ms : List (String × MemberSt)),
      applyGroupAction time
          { id := i, type := ty, startTime := st, duration := du,
            payload := { p with wheelAngle := some .nan } } ms =
        applyGroupAction time
          { id := i, type := ty, startTime := st, duration := du,
            payload := { p with wheelAngle := some (.fin 90) } } ms) := by
  have h0 : wheelAngleOf { p with wheelAngle := some (.fin 0) } = .fin 90 := by
    simp [wheelAngleOf]
  have hn : wheelAngleOf { p with wheelAngle := some .nan } = .fin 90 := by
    simp [wheelAngleOf]
  have h90 : wheelAngleOf { p with wheelAngle := some (.fin 90) } = .fin 90 := by
    simp [wheelAngleOf]
  refine ⟨h0, hn, ?_, ?_, ?_, ?_⟩ <;>
    intro i ty st du time s <;> cases ty <;>
      simp [applyEntityAction, applyGroupAction, entityMovePosition,
        groupMoveAnchorPos, h0, hn, h90]

/-- Base state of the orthogonal-corner test: an entity at (0,0) with one
MOVE to (10,6), `ORTHOGONAL` path, `X_THEN_Y` order, start 0, duration 8. -/
def orthoBase : ParadeState :=
  { entities := [{ id := "e", label := "E", x := .fin 0, y := .fin 0, rotation := .fin 0,
                   groupId := none }],
    groups := [],
    tracks := [("e", { actions := [
      { id := "a1", type := .MOVE, startTime := .fin 0, duration := .fin 8,
        payload := { targetX := some (.fin 10), targetY := some (.fin 6),
                     movePathMode := some .ORTHOGONAL,
                     orthogonalOrder := some .X_THEN_Y } }] })] }

/-- C6.  Orthogonal move phase split: for an entity at (0,0) with one MOVE
action to (10,6), `movePathMode: ORTHOGONAL`, `orthogonalOrder: X_THEN_Y`,
start 0, duration 8, evaluation at t = 5 (progress 0.625 = fracX = 10/16)
yields position exactly (10, 0): x fully arrived at the target, y still at its
start value. -/
theorem c6_orthogonal_phase_split :
    (getParadeStateAtTime orthoBase (.fin 5)).1 =
      [{ id := "e", label := "E", x := .fin 10, y := .fin 0, rotation := .fin 0,
         groupId := none }] := by
  norm_num [getParadeStateAtTime, orthoBase, processTrack, sortActions, insertAction,
    findFirst, setEntityFirst, runEntityActions, applyEntityAction, entityMovePosition,
    effDuration, lerp, jdiv, jadd, jmul, jsub, jneg, jmax, jmin, jabs, jltb, jleb]

/-- First continuity action: MOVE DIRECT to (10, 0), start 0, duration 2. -/
def contA1 : AnimationAction :=
  { id := "a1", type := .MOVE, startTime := .fin 0, duration := .fin 2,
    payload := { targetX := some (.fin 10), targetY := some (.fin 0),
                 movePathMode := some .DIRECT } }

/-- Second continuity action: MOVE DIRECT to (10, 8), start 2, duration 3. -/
def contA2 : AnimationAction :=
  { id := "a2", type := .MOVE, startTime := .fin 2, duration := .fin 3,
    payload := { targetX := some (.fin 10), targetY := some (.fin 8),
                 movePathMode := some .DIRECT } }

/-- Base state with the two-action continuity track. -/
def contBase : ParadeState :=
  { entities := [{ id := "e", label := "E", x := .fin 0, y := .fin 0, rotation := .fin 0,
                   groupId := none }],
    groups := [],
    tracks := [("e", { actions := [contA1, contA2] })] }

/-- Base state with only the first continuity action. -/
def contBase1 : ParadeState :=
  { entities := contBase.entities,
    groups := [],
    tracks := [("e", { actions := [contA1] })] }

/-- C5.  Continuity: each action starts from the running state left by the
previous actions, never from the original base.  For the track
`A1 = {start 0, duration 2}`, `A2 = {start 2, duration 3}` at t = 2:
the evaluation of the track is structurally `applyEntityAction A2` applied to
`applyEntityAction A1` of the base state (A2's start state *is* A1's result);
A1's result at t = 2 is its `progress = 1` end state (10, 0); A2 applied at
t = 2 (progress 0) returns that state unchanged; and the full evaluations of
the two-action track and the A1-only track both equal that end state. -/
theorem c5_continuity :
    (∀ s : EntitySt,
      runEntityActions (.fin 2) [contA1, contA2] s =
        applyEntityAction (.fin 2) contA2 (applyEntityAction (.fin 2) contA1 s)) ∧
    applyEntityAction (.fin 2) contA1 { x := .fin 0, y := .fin 0, rot := .fin 0 } =
      { x := .fin 10, y := .fin 0, rot := .fin 0 } ∧
    applyEntityAction (.fin 2) contA2 { x := .fin 10, y := .fin 0, rot := .fin 0 } =
      { x := .fin 10, y := .fin 0, rot := .fin 0 } ∧
    sortActions [contA1, contA2] = [contA1, contA2] ∧
    (getParadeStateAtTime contBase (.fin 2)).1 =
      [{ id := "e", label := "E", x := .fin 10, y := .fin 0, rotation := .fin 0,
         groupId := none }] ∧
    (getParadeStateAtTime contBase1 (.fin 2)).1 =
      [{ id := "e", label := "E", x := .fin 10, y := .fin 0, rotation := .fin 0,
         groupId := none }] := by
  refine ⟨?_, ?_, ?_, ?_, ?_, ?_⟩ <;>
    first
    | (intro s
       norm_num [runEntityActions, contA1, contA2])
    | norm_num [getParadeStateAtTime, contBase, contBase1, contA1, contA2, processTrack,
        sortActions, insertAction, actionLe, findFirst, setEntityFirst, runEntityActions,
        applyEntityAction, entityMovePosition, effDuration, lerp, jdiv, jadd, jmul, jsub,
        jneg, jmax, jmin, jabs, jltb, jleb]

/-! ## C1: the claimed early stop at an incomplete action -/

/-- Modelled from the spec (§4.3 step 4) for comparison with the code: walk
the sorted actions, stop before an action with `startTime > t`, and stop
*after* applying an action whose clamped progress is strictly less than 1.
The code (lines 51-150) has no such progress-based stop. -/
def runEntityActionsSpecStop (time : JsNum) : List AnimationAction → EntitySt → EntitySt
  | [], s => s
  | a :: rest, s =>
    if jltb time a.startTime then s
    else
      let s' := applyEntityAction time a s
      let clamped := jmax (.fin 0)
        (jmin (.fin 1) (jdiv (jsub time a.startTime) (effDuration a.duration)))
      if jltb clamped (.fin 1) then s' else runEntityActionsSpecStop time rest s'

/-- First overlap action: MOVE DIRECT to (10, 0), start 0, duration 10. -/
def cexA1 : AnimationAction :=
  { id := "a1", type := .MOVE, startTime := .fin 0, duration := .fin 10,
    payload := { targetX := some (.fin 10), targetY := some (.fin 0),
                 movePathMode := some .DIRECT } }

/-- Second (overlapping) action: MOVE DIRECT to (5, 5), start 1, duration 1. -/
def cexA2 : AnimationAction :=
  { id := "a2", type := .MOVE, startTime := .fin 1, duration := .fin 1,
    payload := { targetX := some (.fin 5), targetY := some (.fin 5),
                 movePathMode := some .DIRECT } }

/-- Base state with the two overlapping actions on one entity track. -/
def cexBase : ParadeState :=
  { entities := [{ id := "e", label := "E", x := .fin 0, y := .fin 0, rotation := .fin 0,
                   groupId := none }],
    groups := [],
    tracks := [("e", { actions := [cexA1, cexA2] })] }

/-- C1 counterexample.  At t = 2, the first action `cexA1` is applied at
clamped progress 0.2 < 1 (position (2, 0)), yet the code still applies the
overlapping second action `cexA2` (at progress 1), ending at (5, 5): the
evaluator does *not* stop at the currently active incomplete action, while the
claimed stop semantics (`runEntityActionsSpecStop`) would end at (2, 0). -/
theorem c1_counterexample :
    (getParadeStateAtTime cexBase (.fin 2)).1 =
      [{ id := "e", label := "E", x := .fin 5, y := .fin 5, rotation := .fin 0,
         groupId := none }] ∧
    runEntityActionsSpecStop (.fin 2) (sortActions [cexA1, cexA2])
        { x := .fin 0, y := .fin 0, rot := .fin 0 } =
      { x := .fin 2, y := .fin 0, rot := .fin 0 } ∧
    (JsNum.fin 5 ≠ JsNum.fin 2) := by
  refine ⟨?_, ?_, by simp⟩ <;>
    norm_num [getParadeStateAtTime, cexBase, cexA1, cexA2, processTrack, sortActions,
      insertAction, actionLe, findFirst, setEntityFirst, runEntityActions,
      runEntityActionsSpecStop, applyEntityAction, entityMovePosition, effDuration,
      lerp, jdiv, jadd, jmul, jsub, jneg, jmax, jmin, jabs, jltb, jleb]

/-- Membership in an insertion step. -/
theorem mem_insertAction {b a : AnimationAction} {l : List AnimationAction} :
    b ∈ insertAction a l ↔ b = a ∨ b ∈ l := by
  induction l with
  | nil => simp [insertAction]
  | cons c l ih =>
    by_cases h : actionLe a c = true
    · simp [insertAction, h]
      try tauto
    · simp only [insertAction, h]
      simp [ih]
      try tauto

/-- Membership is preserved by the sort. -/
theorem mem_sortActions {b : AnimationAction} {l : List AnimationAction} :
    b ∈ sortActions l ↔ b ∈ l := by
  induction l with
  | nil => simp [sortActions]
  | cons a l ih =>
    simp only [sortActions, List.foldr_cons]
    rw [show List.foldr insertAction [] l = sortActions l from rfl] at *
    simp [mem_insertAction, ih]

/-- On finite start times, `actionLe` is the ≤ order of the keys. -/
theorem actionLe_fin {a b : AnimationAction} {ra rb : ℝ}
    (ha : a.startTime = .fin ra) (hb : b.startTime = .fin rb) :
    actionLe a b = true ↔ ra ≤ rb := by
  simp [actionLe, ha, hb, jsub, jadd, jneg, jltb]

/-- The conditional key order used to state sortedness of the output. -/
def keyLe (a b : AnimationAction) : Prop :=
  ∀ ra rb : ℝ, a.startTime = .fin ra → b.startTime = .fin rb → ra ≤ rb

/-- Derive `keyLe` from the real order of the two finite keys. -/
theorem keyLe_of_le {a b : AnimationAction} {ra rb : ℝ}
    (ha : a.startTime = .fin ra) (hb : b.startTime = .fin rb) (h : ra ≤ rb) :
    keyLe a b := by
  intro x y hx hy
  rw [ha] at hx
  rw [hb] at hy
  injection hx with hx
  injection hy with hy
  subst hx
  subst hy
  exact h

/-- Inserting into a key-sorted list of finite-start actions keeps it sorted. -/
theorem pairwise_insertAction {a : AnimationAction} {l : List AnimationAction}
    (ha : ∃ r : ℝ, a.startTime = .fin r)
    (hl : ∀ b ∈ l, ∃ r : ℝ, b.startTime = .fin r)
    (h : List.Pairwise keyLe l) : List.Pairwise keyLe (insertAction a l) := by
  induction l with
  | nil => simp [insertAction]
  | cons b l ih =>
    obtain ⟨ra, hra⟩ := ha
    obtain ⟨rb, hrb⟩ := hl b (by simp)
    rw [List.pairwise_cons] at h
    by_cases hle : actionLe a b = true
    · have hab : ra ≤ rb := (actionLe_fin hra hrb).mp hle
      simp only [insertAction]
      rw [if_pos hle, List.pairwise_cons]
      refine ⟨?_, List.pairwise_cons.mpr h⟩
      intro c hc
      rw [List.mem_cons] at hc
      rcases hc with rfl | hc
      · exact keyLe_of_le hra hrb hab
      · obtain ⟨rc, hrc⟩ := hl c (List.mem_cons_of_mem _ hc)
        exact keyLe_of_le hra hrc (le_trans hab (h.1 c hc rb rc hrb hrc))
    · have hba : rb ≤ ra := by
        have hnot : ¬ ra ≤ rb := fun hc0 => hle ((actionLe_fin hra hrb).mpr hc0)
        linarith [lt_of_not_le hnot]
      simp only [insertAction]
      rw [if_neg hle, List.pairwise_cons]
      constructor
      · intro c hc
        rw [mem_insertAction] at hc
        rcases hc with rfl | hc
        · exact keyLe_of_le hrb hra hba
        · exact h.1 c hc
      · exact ih (fun c hc => hl c (List.mem_cons_of_mem _ hc)) h.2

/-- The sort output is key-sorted when all start times are finite. -/
theorem pairwise_sortActions {l : List AnimationAction}
    (hl : ∀ b ∈ l, ∃ r : ℝ, b.startTime = .fin r) :
    List.Pairwise keyLe (sortActions l) := by
  induction l with
  | nil => simp [sortActions]
  | cons a l ih =>
    simp only [sortActions, List.foldr_cons]
    rw [show List.foldr insertAction [] l = sortActions l from rfl]
    refine pairwise_insertAction (hl a (by simp)) ?_ (ih ?_)
    · intro b hb
      exact hl b (by simp [mem_sortActions.mp hb])
    · intro b hb
      exact hl b (by simp [hb])

/-- Elements of a `takeWhile` are elements of the list. -/
theorem mem_of_takeWhile {α : Type} {p : α → Bool} {l : List α} {a : α}
    (h : a ∈ l.takeWhile p) : a ∈ l := by
  induction l with
  | nil => simp at h
  | cons b l ih =>
    rw [List.takeWhile_cons] at h
    by_cases hb : p b = true
    · rw [if_pos hb, List.mem_cons] at h
      rcases h with rfl | h
      · simp
      · simp [ih h]
    · rw [if_neg hb] at h
      simp at h

/-- The entity action loop is the fold over the `takeWhile` prefix of actions
not starting after the query time. -/
theorem runEntityActions_eq_takeWhile (time : JsNum) (l : List AnimationAction)
    (s : EntitySt) :
    runEntityActions time l s =
      (l.takeWhile (fun a => !jltb time a.startTime)).foldl
        (fun st a => applyEntityAction time a st) s := by
  induction l generalizing s with
  | nil => rfl
  | cons a l ih =>
    by_cases h : jltb time a.startTime = true
    · simp [runEntityActions, h, List.takeWhile_cons]
    · simp only [runEntityActions, h, Bool.false_eq_true, if_neg, not_false_iff,
        List.takeWhile_cons, Bool.not_eq_true', Bool.not_true]
      rw [Bool.not_eq_true] at h
      simp [h, ih]

/-- Same for the group action loop. -/
theorem runGroupActions_eq_takeWhile (time : JsNum) (l : List AnimationAction)
    (ms : List (String × MemberSt)) :
    runGroupActions time l ms =
      (l.takeWhile (fun a => !jltb time a.startTime)).foldl
        (fun m a => applyGroupAction time a m) ms := by
  induction l generalizing ms with
  | nil => rfl
  | cons a l ih =>
    by_cases h : jltb time a.startTime = true
    · simp [runGroupActions, h, List.takeWhile_cons]
    · simp only [runGroupActions, h, Bool.false_eq_true, if_neg, not_false_iff,
        List.takeWhile_cons, Bool.not_eq_true', Bool.not_true]
      rw [Bool.not_eq_true] at h
      simp [h, ih]

/-- C1 (amended).  For every track, evaluation applies, in order, exactly
the prefix of the start-time-sorted actions whose `startTime ≤ t` (both for
entity and group owner loops): the loop equals the fold over the `takeWhile`
prefix, every applied action has `startTime ≤ t`, every unapplied action has
`startTime > t`, and the sorted list is ascending in start time.  There is no
early stop at an action with clamped progress < 1: overlapping actions with
`startTime ≤ t` are all applied (last-applied wins). -/
theorem c1_amended (l : List AnimationAction) (s : EntitySt)
    (ms : List (String × MemberSt)) (t : ℝ)
    (hfin : ∀ a ∈ l, ∃ r : ℝ, a.startTime = .fin r) :
    runEntityActions (.fin t) (sortActions l) s =
      ((sortActions l).takeWhile (fun a => !jltb (.fin t) a.startTime)).foldl
        (fun st a => applyEntityAction (.fin t) a st) s ∧
    runGroupActions (.fin t) (sortActions l) ms =
      ((sortActions l).takeWhile (fun a => !jltb (.fin t) a.startTime)).foldl
        (fun m a => applyGroupAction (.fin t) a m) ms ∧
    (∀ a ∈ (sortActions l).takeWhile (fun a => !jltb (.fin t) a.startTime),
      ∃ r : ℝ, a.startTime = .fin r ∧ r ≤ t) ∧
    (∀ a ∈ (sortActions l).dropWhile (fun a => !jltb (.fin t) a.startTime),
      ∃ r : ℝ, a.startTime = .fin r ∧ t < r) ∧
    List.Pairwise keyLe (sortActions l) := by
  have hfin' : ∀ a ∈ sortActions l, ∃ r : ℝ, a.startTime = .fin r :=
    fun a ha => hfin a (mem_sortActions.mp ha)
  have hpw := pairwise_sortActions hfin
  refine ⟨runEntityActions_eq_takeWhile _ _ _, runGroupActions_eq_takeWhile _ _ _,
    ?_, ?_, hpw⟩
  · intro a ha
    obtain ⟨r, hr⟩ := hfin' a (mem_of_takeWhile ha)
    have hp := List.mem_takeWhile_imp ha
    rw [hr] at hp ⊢
    refine ⟨r, rfl, ?_⟩
    simp [jltb] at hp
    linarith
  · -- all dropped actions start strictly after t, using sortedness
    have : ∀ (l' : List AnimationAction), List.Pairwise keyLe l' →
        (∀ a ∈ l', ∃ r : ℝ, a.startTime = .fin r) →
        ∀ a ∈ l'.dropWhile (fun a => !jltb (.fin t) a.startTime),
          ∃ r : ℝ, a.startTime = .fin r ∧ t < r := by
      intro l'
      induction l' with
      | nil => simp
      | cons b l' ih =>
        intro hpw' hfin'' a ha
        rw [List.pairwise_cons] at hpw'
        by_cases hb : (!jltb (.fin t) b.startTime) = true
        · rw [List.dropWhile_cons, if_pos hb] at ha
          exact ih hpw'.2 (fun c hc => hfin'' c (by simp [hc])) a ha
        · rw [List.dropWhile_cons, if_neg hb] at ha
          obtain ⟨rb, hrb⟩ := hfin'' b (by simp)
          have htb : t < rb := by
            rw [hrb] at hb
            simp [jltb] at hb
            exact hb
          rw [List.mem_cons] at ha
          rcases ha with rfl | ha
          · exact ⟨rb, hrb, htb⟩
          · obtain ⟨ra, hra⟩ := hfin'' a (by simp [ha])
            exact ⟨ra, hra, lt_of_lt_of_le htb (hpw'.1 a ha rb ra hrb hra)⟩
    exact this _ hpw hfin'

/-- C1 witness: the amended theorem instantiated on the overlapping
two-action track at t = 2. -/
theorem c1_amended_witness :
    (∀ a ∈ [cexA1, cexA2], ∃ r : ℝ, a.startTime = JsNum.fin r) ∧
    (runEntityActions (.fin 2) (sortActions [cexA1, cexA2])
        { x := .fin 0, y := .fin 0, rot := .fin 0 } =
      ((sortActions [cexA1, cexA2]).takeWhile
          (fun a => !jltb (.fin 2) a.startTime)).foldl
        (fun st a => applyEntityAction (.fin 2) a st)
        { x := .fin 0, y := .fin 0, rot := .fin 0 } ∧
    runGroupActions (.fin 2) (sortActions [cexA1, cexA2]) [] =
      ((sortActions [cexA1, cexA2]).takeWhile
          (fun a => !jltb (.fin 2) a.startTime)).foldl
        (fun m a => applyGroupAction (.fin 2) a m) [] ∧
    (∀ a ∈ (sortActions [cexA1, cexA2]).takeWhile
        (fun a => !jltb (.fin 2) a.startTime),
      ∃ r : ℝ, a.startTime = JsNum.fin r ∧ r ≤ 2) ∧
    (∀ a ∈ (sortActions [cexA1, cexA2]).dropWhile
        (fun a => !jltb (.fin 2) a.startTime),
      ∃ r : ℝ, a.startTime = JsNum.fin r ∧ 2 < r) ∧
    List.Pairwise keyLe (sortActions [cexA1, cexA2])) := by
  have hfin : ∀ a ∈ [cexA1, cexA2], ∃ r : ℝ, a.startTime = JsNum.fin r := by
    intro a ha
    rw [List.mem_cons, List.mem_cons] at ha
    rcases ha with rfl | rfl | h
    · exact ⟨0, rfl⟩
    · exact ⟨1, rfl⟩
    · simp at h
  exact ⟨hfin, c1_amended [cexA1, cexA2] _ [] 2 hfin⟩

/-! ## C3: zero-time identity -/

/-- Base state refuting the claim literally: a single entity whose base `x` is
NaN, with no tracks at all. -/
def nanBase : ParadeState :=
  { entities := [{ id := "e", label := "E", x := .nan, y := .fin 0, rotation := .fin 0,
                   groupId := none }],
    groups := [],
    tracks := [] }

/-- C3 counterexample.  Evaluating `nanBase` at time 0 does *not* return
the base entities: the non-finite base `x` is replaced by 0 up front
(line 17), so the returned entity differs from the base entity even though it
has no action at all. -/
theorem c3_counterexample :
    (getParadeStateAtTime nanBase (.fin 0)).1 =
      [{ id := "e", label := "E", x := .fin 0, y := .fin 0, rotation := .fin 0,
         groupId := none }] ∧
    nanBase.entities =
      [{ id := "e", label := "E", x := .nan, y := .fin 0, rotation := .fin 0,
         groupId := none }] ∧
    (JsNum.fin 0 ≠ JsNum.nan) := by
  refine ⟨?_, rfl, by simp⟩
  norm_num [getParadeStateAtTime, nanBase]

/-! ## Structural lemmas about the evaluator -/

/-- Rebuilding an entity from its own fields is the identity. -/
theorem entity_eta (e : Entity) :
    ({ e with x := e.x, y := e.y, rotation := e.rotation } : Entity) = e := rfl

/-- A found entity has the looked-up id and is a member of the list. -/
theorem findFirst_eq_some {es : List Entity} {oid : String} {m : Entity}
    (h : findFirst es oid = some m) : m.id = oid ∧ m ∈ es := by
  induction es with
  | nil => simp [findFirst] at h
  | cons u es ih =>
    by_cases hu : u.id = oid
    · rw [findFirst, if_pos hu] at h
      cases h
      exact ⟨hu, by simp⟩
    · rw [findFirst, if_neg hu] at h
      obtain ⟨h1, h2⟩ := ih h
      exact ⟨h1, by simp [h2]⟩

/-- With pairwise-distinct ids, the first entity found under the id of the
element at index `i` is that element itself. -/
theorem findFirst_of_getElem {es : List Entity} {i : ℕ} {e : Entity}
    (he : es[i]? = some e) (hnd : (es.map (fun u => u.id)).Nodup) :
    findFirst es e.id = some e := by
  induction es generalizing i with
  | nil => simp at he
  | cons u es ih =>
    rw [List.map_cons, List.nodup_cons] at hnd
    cases i with
    | zero =>
      simp at he
      subst he
      simp [findFirst]
    | succ i =>
      simp only [List.getElem?_cons_succ] at he
      have hmem : e ∈ es := List.getElem?_mem he
      have hne : u.id ≠ e.id := by
        intro hc
        exact hnd.1 (by rw [hc]; exact List.mem_map_of_mem _ hmem)
      rw [findFirst, if_neg hne]
      exact ih he hnd.2

/-- Replacing the first match by a function fixing it changes nothing. -/
theorem setEntityFirst_of_fix {es : List Entity} {oid : String} {f : Entity → Entity}
    (hfix : ∀ m, findFirst es oid = some m → f m = m) :
    setEntityFirst es oid f = es := by
  induction es with
  | nil => rfl
  | cons u es ih =>
    by_cases hu : u.id = oid
    · rw [setEntityFirst, if_pos hu]
      rw [hfix u (by rw [findFirst, if_pos hu])]
    · rw [setEntityFirst, if_neg hu]
      rw [ih]
      intro m hm
      exact hfix m (by rw [findFirst, if_neg hu]; exact hm)

/-- Entries whose id differs from the replaced one are untouched. -/
theorem setEntityFirst_getElem_ne {es : List Entity} {oid : String} {f : Entity → Entity}
    {i : ℕ} {e : Entity} (he : es[i]? = some e) (hne : e.id ≠ oid) :
    (setEntityFirst es oid f)[i]? = some e := by
  induction es generalizing i with
  | nil => simp at he
  | cons u es ih =>
    by_cases hu : u.id = oid
    · rw [setEntityFirst, if_pos hu]
      cases i with
      | zero =>
        simp at he
        subst he
        exact absurd hu hne
      | succ i => simpa using he
    · rw [setEntityFirst, if_neg hu]
      cases i with
      | zero => simpa using he
      | succ i =>
        simp only [List.getElem?_cons_succ] at he ⊢
        exact ih he

/-- Members of the replaced list are old members or the image of one. -/
theorem mem_setEntityFirst {es : List Entity} {oid : String} {f : Entity → Entity}
    {u : Entity} (h : u ∈ setEntityFirst es oid f) :
    u ∈ es ∨ ∃ v ∈ es, u = f v := by
  induction es with
  | nil => simp [setEntityFirst] at h
  | cons w es ih =>
    by_cases hw : w.id = oid
    · rw [setEntityFirst, if_pos hw, List.mem_cons] at h
      rcases h with rfl | h
      · exact Or.inr ⟨w, by simp⟩
      · exact Or.inl (by simp [h])
    · rw [setEntityFirst, if_neg hw, List.mem_cons] at h
      rcases h with rfl | h
      · exact Or.inl (by simp)
      · rcases ih h with h | ⟨v, hv, rfl⟩
        · exact Or.inl (by simp [h])
        · exact Or.inr ⟨v, by simp [hv]⟩

/-- Replacement preserves the id sequence when `f` keeps ids. -/
theorem setEntityFirst_map_id {es : List Entity} {oid : String} {f : Entity → Entity}
    (hf : ∀ u, (f u).id = u.id) :
    (setEntityFirst es oid f).map (fun u => u.id) = es.map (fun u => u.id) := by
  induction es with
  | nil => rfl
  | cons u es ih =>
    by_cases hu : u.id = oid
    · rw [setEntityFirst, if_pos hu]
      simp [hf]
    · rw [setEntityFirst, if_neg hu]
      simp [ih]

/-- JS `Map.set` on a fresh key appends. -/
theorem msSet_not_mem {m : List (String × MemberSt)} {k : String} {v : MemberSt}
    (h : k ∉ m.map Prod.fst) : msSet m k v = m ++ [(k, v)] := by
  rw [msSet, if_neg]
  simp only [List.any_eq_true, not_exists, not_and]
  intro p hp hpk
  rw [decide_eq_true_eq] at hpk
  exact h (by rw [← hpk]; exact List.mem_map_of_mem _ hp)

/-- Seeding the member map over pairwise-distinct ids is just a map. -/
theorem foldl_msSet_eq_map (g : Entity → MemberSt) :
    ∀ (members : List Entity) (acc : List (String × MemberSt)),
      (members.map (fun u => u.id)).Nodup →
      (∀ u ∈ members, u.id ∉ acc.map Prod.fst) →
      members.foldl (fun m u => msSet m u.id (g u)) acc =
        acc ++ members.map (fun u => (u.id, g u)) := by
  intro members
  induction members with
  | nil => simp
  | cons u members ih =>
    intro acc hnd hdis
    rw [List.map_cons, List.nodup_cons] at hnd
    rw [List.foldl_cons, msSet_not_mem (hdis u (by simp))]
    rw [ih _ hnd.2]
    · simp
    · intro w hw
      simp only [List.map_append, List.mem_append]
      rintro (h | h)
      · exact hdis w (by simp [hw]) h
      · simp at h
        exact hnd.1 (by rw [← h]; exact List.mem_map_of_mem _ hw)

/-- Lookup in a mapped association list of distinct ids. -/
theorem msGet_map_of_nodup (g : Entity → MemberSt) :
    ∀ (members : List Entity) (e : Entity),
      (members.map (fun u => u.id)).Nodup → e ∈ members →
      msGet (members.map (fun u => (u.id, g u))) e.id = some (g e) := by
  intro members
  induction members with
  | nil => simp
  | cons u members ih =>
    intro e hnd he
    rw [List.map_cons, List.nodup_cons] at hnd
    rw [List.mem_cons] at he
    rcases he with rfl | he
    · simp [msGet]
    · rw [List.map_cons, msGet]
      rw [if_neg]
      · exact ih e hnd.2 he
      · intro hc
        have hc' : u.id = e.id := hc
        exact hnd.1 (by rw [hc']; exact List.mem_map_of_mem _ he)

/-- The group loop does nothing when every action starts strictly after `t`. -/
theorem runGroupActions_id_of_break {time : JsNum} {acts : List AnimationAction}
    (h : ∀ a ∈ acts, jltb time a.startTime = true)
    (ms : List (String × MemberSt)) : runGroupActions time acts ms = ms := by
  cases acts with
  | nil => rfl
  | cons a rest => rw [runGroupActions, if_pos (h a (by simp))]

/-- The entity loop does nothing when every action starts strictly after `t`. -/
theorem runEntityActions_id_of_break {time : JsNum} {acts : List AnimationAction}
    (h : ∀ a ∈ acts, jltb time a.startTime = true)
    (s : EntitySt) : runEntityActions time acts s = s := by
  cases acts with
  | nil => rfl
  | cons a rest => rw [runEntityActions, if_pos (h a (by simp))]

/-- Finiteness of all coordinates of all entities in a list. -/
def AllFinite (es : List Entity) : Prop :=
  ∀ e ∈ es, jIsFinite e.x = true ∧ jIsFinite e.y = true ∧ jIsFinite e.rotation = true

/-- Group transform of a non-member entity leaves its slot untouched. -/
theorem applyGroupTransform_getElem_nonmember {es : List Entity} {gid : String}
    {acts : List AnimationAction} {time : JsNum} {i : ℕ} {e : Entity}
    (he : es[i]? = some e) (hne : e.groupId ≠ some gid) :
    (applyGroupTransform es gid acts time)[i]? = some e := by
  rw [applyGroupTransform]
  by_cases hemp : (es.filter (fun u => u.groupId = some gid)).isEmpty
  · simp only [hemp, if_pos]
    exact he
  · simp only [hemp, Bool.false_eq_true, if_neg, not_false_iff]
    rw [List.getElem?_map, he, Option.map_some']
    rw [if_neg hne]

/-- When every action of a group track starts strictly after `t`, applying the
track to finite entities with distinct ids is the identity. -/
theorem applyGroupTransform_id_of_break {es : List Entity} {gid : String}
    {acts : List AnimationAction} {time : JsNum}
    (hnd : (es.map (fun u => u.id)).Nodup) (hfin : AllFinite es)
    (hbr : ∀ a ∈ acts, jltb time a.startTime = true) :
    applyGroupTransform es gid acts time = es := by
  rw [applyGroupTransform]
  by_cases hemp : (es.filter (fun u => u.groupId = some gid)).isEmpty
  · simp only [hemp, if_pos]
  · simp only [hemp, Bool.false_eq_true, if_neg, not_false_iff]
    have hndm : ((es.filter (fun u => u.groupId = some gid)).map (fun u => u.id)).Nodup :=
      List.Nodup.sublist (List.Sublist.map _ (List.filter_sublist es)) hnd
    rw [foldl_msSet_eq_map _ _ [] hndm (by simp)]
    rw [runGroupActions_id_of_break hbr]
    have : ∀ e ∈ es,
        (if e.groupId = some gid then
          match msGet (List.nil ++ (es.filter (fun u => u.groupId = some gid)).map
              (fun u => (u.id, ⟨sanitize u.x, sanitize u.y, sanitize u.rotation⟩))) e.id with
          | some st =>
            { e with
              x := if jIsFinite st.x then st.x else e.x,
              y := if jIsFinite st.y then st.y else e.y,
              rotation := if jIsFinite st.rot then st.rot else e.rotation }
          | none => e
        else e) = e := by
      intro e he
      by_cases hg : e.groupId = some gid
      · rw [if_pos hg]
        have hmem : e ∈ es.filter (fun u => u.groupId = some gid) :=
          List.mem_filter.mpr ⟨he, by simp [hg]⟩
        rw [List.nil_append,
          msGet_map_of_nodup (fun u => ⟨sanitize u.x, sanitize u.y, sanitize u.rotation⟩)
            _ e hndm hmem]
        obtain ⟨hx, hy, hr⟩ := hfin e he
        obtain ⟨x0, hx0⟩ := jIsFinite_iff.mp hx
        obtain ⟨y0, hy0⟩ := jIsFinite_iff.mp hy
        obtain ⟨r0, hr0⟩ := jIsFinite_iff.mp hr
        simp only [hx0, hy0, hr0, sanitize_fin, jIsFinite_fin, if_pos]
        rw [← hx0, ← hy0, ← hr0]
      · rw [if_neg hg]
    calc es.map _ = es.map id := List.map_congr_left (fun e he => this e he)
      _ = es := List.map_id es

/-- The group write-back preserves finiteness of all entities: every field is
either a finite member-state value or the (finite) previous value. -/
theorem applyGroupTransform_allFinite {es : List Entity} {gid : String}
    {acts : List AnimationAction} {time : JsNum} (hfin : AllFinite es) :
    AllFinite (applyGroupTransform es gid acts time) := by
  rw [applyGroupTransform]
  by_cases hemp : (es.filter (fun u => u.groupId = some gid)).isEmpty
  · simpa only [hemp, if_pos] using hfin
  · simp only [hemp, Bool.false_eq_true, if_neg, not_false_iff]
    intro u hu
    rw [List.mem_map] at hu
    obtain ⟨v, hv, rfl⟩ := hu
    obtain ⟨hx, hy, hr⟩ := hfin v hv
    by_cases hg : v.groupId = some gid
    · rw [if_pos hg]
      cases hms : msGet (runGroupActions time acts
          ((es.filter (fun e => e.groupId = some gid)).foldl
            (fun m e => msSet m e.id
              { x := sanitize e.x, y := sanitize e.y, rot := sanitize e.rotation }) [])) v.id with
      | none => exact ⟨hx, hy, hr⟩
      | some st =>
        refine ⟨?_, ?_, ?_⟩ <;> dsimp only
        · by_cases h : jIsFinite st.x = true
          · rw [if_pos h]; exact h
          · rw [if_neg h]; exact hx
        · by_cases h : jIsFinite st.y = true
          · rw [if_pos h]; exact h
          · rw [if_neg h]; exact hy
        · by_cases h : jIsFinite st.rot = true
          · rw [if_pos h]; exact h
          · rw [if_neg h]; exact hr
    · rw [if_neg hg]
      exact ⟨hx, hy, hr⟩

/-- A processed track preserves finiteness of all entities. -/
theorem processTrack_allFinite {gset : List (String × GroupMetadata)} {time : JsNum}
    {es : List Entity} {tk : String × AnimationTrack} (hfin : AllFinite es) :
    AllFinite (processTrack gset time es tk) := by
  rw [processTrack]
  by_cases hemp : tk.2.actions.isEmpty
  · simpa only [hemp, if_pos] using hfin
  · simp only [hemp, Bool.false_eq_true, if_neg, not_false_iff]
    by_cases hg : (lookupGroup gset tk.1).isSome = true
    · simp only [hg, if_pos]
      exact applyGroupTransform_allFinite hfin
    · simp only [hg, Bool.false_eq_true, if_neg, not_false_iff]
      cases hf : findFirst es tk.1 with
      | none => exact hfin
      | some entity =>
        intro u hu
        rcases mem_setEntityFirst hu with h | ⟨v, hv, rfl⟩
        · exact hfin u h
        · obtain ⟨hx, hy, hr⟩ := hfin v hv
          refine ⟨?_, ?_, ?_⟩ <;> dsimp only
          · by_cases h : jIsFinite (runEntityActions time (sortActions tk.2.actions)
                { x := entity.x, y := entity.y, rot := entity.rotation }).x = true
            · rw [if_pos h]; exact h
            · rw [if_neg h]; exact hx
          · by_cases h : jIsFinite (runEntityActions time (sortActions tk.2.actions)
                { x := entity.x, y := entity.y, rot := entity.rotation }).y = true
            · rw [if_pos h]; exact h
            · rw [if_neg h]; exact hy
          · by_cases h : jIsFinite (runEntityActions time (sortActions tk.2.actions)
                { x := entity.x, y := entity.y, rot := entity.rotation }).rot = true
            · rw [if_pos h]; exact h
            · rw [if_neg h]; exact hr

/-- The group transform preserves the id sequence. -/
theorem applyGroupTransform_map_id {es : List Entity} {gid : String}
    {acts : List AnimationAction} {time : JsNum} :
    (applyGroupTransform es gid acts time).map (fun u => u.id) =
      es.map (fun u => u.id) := by
  rw [applyGroupTransform]
  by_cases hemp : (es.filter (fun u => u.groupId = some gid)).isEmpty
  · simp only [hemp, if_pos]
  · simp only [hemp, Bool.false_eq_true, if_neg, not_false_iff, List.map_map]
    apply List.map_congr_left
    intro u hu
    by_cases hg : u.groupId = some gid
    · rw [Function.comp_apply, if_pos hg]
      cases msGet (runGroupActions time acts _) u.id <;> rfl
    · rw [Function.comp_apply, if_neg hg]

/-- A processed track preserves the id sequence. -/
theorem processTrack_map_id {gset : List (String × GroupMetadata)} {time : JsNum}
    {es : List Entity} {tk : String × AnimationTrack} :
    (processTrack gset time es tk).map (fun u => u.id) = es.map (fun u => u.id) := by
  rw [processTrack]
  by_cases hemp : tk.2.actions.isEmpty
  · simp only [hemp, if_pos]
  · simp only [hemp, Bool.false_eq_true, if_neg, not_false_iff]
    by_cases hg : (lookupGroup gset tk.1).isSome = true
    · simp only [hg, if_pos]
      exact applyGroupTransform_map_id
    · simp only [hg, Bool.false_eq_true, if_neg, not_false_iff]
      cases hf : findFirst es tk.1 with
      | none => rfl
      | some entity => exact setEntityFirst_map_id (fun u => rfl)

/-- A track that either does not concern the entity in slot `i`, or all of
whose actions start strictly after the query time, leaves that slot
untouched. -/
theorem processTrack_getElem_untouched {gset : List (String × GroupMetadata)}
    {time : JsNum} {es : List Entity} {tk : String × AnimationTrack} {i : ℕ} {e : Entity}
    (he : es[i]? = some e) (hnd : (es.map (fun u => u.id)).Nodup) (hfin : AllFinite es)
    (hskip : tk.1 = e.id ∨ e.groupId = some tk.1 →
      ∀ a ∈ tk.2.actions, jltb time a.startTime = true) :
    (processTrack gset time es tk)[i]? = some e := by
  rw [processTrack]
  by_cases hemp : tk.2.actions.isEmpty
  · simp only [hemp, if_pos]
    exact he
  · simp only [hemp, Bool.false_eq_true, if_neg, not_false_iff]
    by_cases hg : (lookupGroup gset tk.1).isSome = true
    · simp only [hg, if_pos]
      by_cases hm : e.groupId = some tk.1
      · rw [applyGroupTransform_id_of_break hnd hfin
          (fun a ha => hskip (Or.inr hm) a (mem_sortActions.mp ha))]
        exact he
      · exact applyGroupTransform_getElem_nonmember he hm
    · simp only [hg, Bool.false_eq_true, if_neg, not_false_iff]
      cases hf : findFirst es tk.1 with
      | none => exact he
      | some entity =>
        dsimp only
        by_cases hid : tk.1 = e.id
        · have hf2 : findFirst es tk.1 = some e := by
            rw [hid]
            exact findFirst_of_getElem he hnd
          have hee : entity = e := by
            rw [hf] at hf2
            exact (Option.some.injEq _ _).mp hf2
          subst hee
          rw [runEntityActions_id_of_break
            (fun a ha => hskip (Or.inl hid) a (mem_sortActions.mp ha))]
          rw [setEntityFirst_of_fix]
          · exact he
          · intro m hm
            rw [hf] at hm
            cases hm
            simp only [ite_self]
        · exact setEntityFirst_getElem_ne he (fun hc => hid hc.symm)

/-- Folding tracks that each either skip or do not concern slot `i` leaves it
untouched, id-sequences and finiteness being preserved along the way. -/
theorem foldl_processTrack_untouched {gset : List (String × GroupMetadata)}
    {time : JsNum} {i : ℕ} {e : Entity} :
    ∀ (tracks : List (String × AnimationTrack)) (es : List Entity),
      es[i]? = some e → (es.map (fun u => u.id)).Nodup → AllFinite es →
      (∀ p ∈ tracks, p.1 = e.id ∨ e.groupId = some p.1 →
        ∀ a ∈ p.2.actions, jltb time a.startTime = true) →
      (tracks.foldl (processTrack gset time) es)[i]? = some e := by
  intro tracks
  induction tracks with
  | nil => intro es he _ _ _; exact he
  | cons tk tracks ih =>
    intro es he hnd hfin hskip
    rw [List.foldl_cons]
    refine ih _ ?_ ?_ ?_ ?_
    · exact processTrack_getElem_untouched he hnd hfin (hskip tk (by simp))
    · rw [processTrack_map_id]
      exact hnd
    · exact processTrack_allFinite hfin
    · intro p hp
      exact hskip p (by simp [hp])

/-- Function `sanitize` always yields a finite value. -/
theorem sanitize_finite (v : JsNum) : jIsFinite (sanitize v) = true := by
  cases v <;> simp [sanitize]

/-- Function `sanitize` fixes finite values. -/
theorem sanitize_of_finite {v : JsNum} (h : jIsFinite v = true) : sanitize v = v := by
  rw [sanitize, if_pos h]

/-- C2.  For every base state — including states and payloads containing
NaN or Infinity coordinates, rotations, durations, or wheel angles — and every
time, evaluation returns a snapshot in which every entity's x, y and rotation
is a finite number.  (Totality — "never throws" — holds by construction: the
embedding of the evaluator is a total Lean function on the full, well-typed
state space, with every partial JS operation given its real semantics on
special values.) -/
theorem c2_output_finite (base : ParadeState) (time : JsNum) :
    AllFinite (getParadeStateAtTime base time).1 := by
  rw [getParadeStateAtTime]
  have h0 : AllFinite (base.entities.map (fun e =>
      { e with x := sanitize e.x, y := sanitize e.y, rotation := sanitize e.rotation })) := by
    intro u hu
    rw [List.mem_map] at hu
    obtain ⟨v, _, rfl⟩ := hu
    exact ⟨sanitize_finite v.x, sanitize_finite v.y, sanitize_finite v.rotation⟩
  have hall : ∀ (tracks : List (String × AnimationTrack)) (es : List Entity),
      AllFinite es → AllFinite (tracks.foldl (processTrack base.groups time) es) := by
    intro tracks
    induction tracks with
    | nil => intro es h; exact h
    | cons tk tracks ih =>
      intro es h
      rw [List.foldl_cons]
      exact ih _ (processTrack_allFinite h)
  exact hall base.tracks _ h0

/-- C3 (amended).  For any base state whose entities all have finite
coordinates and pairwise-distinct ids, evaluating at time 0 returns, in every
slot `i` whose entity has no action of an affecting track (its own track or
its group's track) starting at 0 — under the data model's `startTime ≥ 0`,
i.e. all affecting start times are strictly positive — exactly the base entity
of that slot.  (The counterexample forces the finiteness hypothesis: non-finite
base coordinates are replaced by 0 up front.) -/
theorem c3_amended (base : ParadeState)
    (hfin : AllFinite base.entities)
    (hnd : (base.entities.map (fun u => u.id)).Nodup)
    (i : ℕ) (e : Entity) (he : base.entities[i]? = some e)
    (hnozero : ∀ p ∈ base.tracks, p.1 = e.id ∨ e.groupId = some p.1 →
      ∀ a ∈ p.2.actions, ∃ r : ℝ, a.startTime = JsNum.fin r ∧ 0 < r) :
    (getParadeStateAtTime base (.fin 0)).1[i]? = some e := by
  rw [getParadeStateAtTime]
  have hsan : base.entities.map (fun e =>
      { e with x := sanitize e.x, y := sanitize e.y, rotation := sanitize e.rotation }) =
      base.entities := by
    have : ∀ u ∈ base.entities,
        ({ u with x := sanitize u.x, y := sanitize u.y, rotation := sanitize u.rotation } :
          Entity) = u := by
      intro u hu
      obtain ⟨hx, hy, hr⟩ := hfin u hu
      rw [sanitize_of_finite hx, sanitize_of_finite hy, sanitize_of_finite hr]
    calc base.entities.map _ = base.entities.map id := List.map_congr_left this
      _ = base.entities := List.map_id _
  dsimp only
  rw [hsan]
  refine foldl_processTrack_untouched base.tracks base.entities he hnd hfin ?_
  intro p hp hor a ha
  obtain ⟨r, hr, hrpos⟩ := hnozero p hp hor a ha
  rw [hr]
  simp [jltb, hrpos]

/-- The entity inspected by the C3 witness. -/
def c3wEnt : Entity :=
  { id := "a", label := "A", x := .fin 1, y := .fin 2, rotation := .fin 3,
    groupId := none }

/-- C3 witness base: two entities, a track on the second one starting at 1. -/
def c3wBase : ParadeState :=
  { entities := [c3wEnt,
      { id := "b", label := "B", x := .fin 4, y := .fin 5, rotation := .fin 0,
        groupId := none }],
    groups := [],
    tracks := [("b", { actions := [
      { id := "t1", type := .TURN, startTime := .fin 1, duration := .fin 1,
        payload := { targetRotation := some (.fin 90) } }] })] }

/-- C3 witness: the amended zero-time identity instantiated on `c3wBase`,
slot 0. -/
theorem c3_amended_witness :
    AllFinite c3wBase.entities ∧
    ((c3wBase.entities.map (fun u => u.id)).Nodup ∧
    c3wBase.entities[0]? = some c3wEnt ∧
    (∀ p ∈ c3wBase.tracks, p.1 = c3wEnt.id ∨ c3wEnt.groupId = some p.1 →
      ∀ a ∈ p.2.actions, ∃ r : ℝ, a.startTime = JsNum.fin r ∧ 0 < r) ∧
    (getParadeStateAtTime c3wBase (.fin 0)).1[0]? = some c3wEnt) := by
  have h1 : AllFinite c3wBase.entities := by
    intro u hu
    rw [c3wBase] at hu
    simp only [List.mem_cons, List.not_mem_nil, or_false] at hu
    rcases hu with rfl | rfl <;> simp [c3wEnt]
  have h2 : (c3wBase.entities.map (fun u => u.id)).Nodup := by
    simp [c3wBase, c3wEnt]
  have h3 : c3wBase.entities[0]? = some c3wEnt := rfl
  have h4 : ∀ p ∈ c3wBase.tracks, p.1 = c3wEnt.id ∨ c3wEnt.groupId = some p.1 →
      ∀ a ∈ p.2.actions, ∃ r : ℝ, a.startTime = JsNum.fin r ∧ 0 < r := by
    intro p hp hor
    rw [c3wBase] at hp
    simp only [List.mem_cons, List.not_mem_nil, or_false] at hp
    subst hp
    rcases hor with h | h <;> simp [c3wEnt] at h
  exact ⟨h1, h2, h3, h4, c3_amended c3wBase h1 h2 0 c3wEnt h3 h4⟩

/-- No entity with the id: `find` misses. -/
theorem findFirst_eq_none {es : List Entity} {oid : String}
    (h : ∀ u ∈ es, u.id ≠ oid) : findFirst es oid = none := by
  induction es with
  | nil => rfl
  | cons u es ih =>
    rw [findFirst, if_neg (h u (by simp))]
    exact ih (fun w hw => h w (by simp [hw]))

/-- No group with the id: the record access misses. -/
theorem lookupGroup_eq_none {gs : List (String × GroupMetadata)} {oid : String}
    (h : ∀ p ∈ gs, p.1 ≠ oid) : lookupGroup gs oid = none := by
  induction gs with
  | nil => rfl
  | cons p gs ih =>
    rw [lookupGroup, if_neg (h p (by simp))]
    exact ih (fun q hq => h q (by simp [hq]))

/-- Folding tracks preserves the id sequence. -/
theorem foldl_processTrack_map_id (gset : List (String × GroupMetadata)) (time : JsNum) :
    ∀ (tracks : List (String × AnimationTrack)) (es : List Entity),
      (tracks.foldl (processTrack gset time) es).map (fun u => u.id) =
        es.map (fun u => u.id) := by
  intro tracks
  induction tracks with
  | nil => intro es; rfl
  | cons tk tracks ih =>
    intro es
    rw [List.foldl_cons, ih, processTrack_map_id]

/-- A track with no actions, or whose owner id matches no entity and no group
of the base state, is skipped: processing it is the identity (provided the
running entities still carry the base ids). -/
theorem processTrack_skip {gset : List (String × GroupMetadata)} {time : JsNum}
    {es : List Entity} {oid : String} {tr : AnimationTrack}
    (h : tr.actions = [] ∨ ((∀ u ∈ es, u.id ≠ oid) ∧ ∀ p ∈ gset, p.1 ≠ oid)) :
    processTrack gset time es (oid, tr) = es := by
  rw [processTrack]
  rcases h with h | ⟨hent, hgrp⟩
  · rw [if_pos (by simp [h])]
  · by_cases hemp : tr.actions.isEmpty
    · rw [if_pos hemp]
    · simp only [hemp, Bool.false_eq_true, if_neg, not_false_iff]
      rw [lookupGroup_eq_none hgrp]
      simp only [Option.isSome_none, Bool.false_eq_true, if_neg, not_false_iff]
      rw [findFirst_eq_none hent]

/-- C9.  For every track whose owner id matches neither an entity nor a
group of the base state, and for every track with an empty action list,
evaluation skips the track silently: the result (entities and groups) equals
the evaluation of the same base state with that track removed.  (No error:
the evaluator is total by construction.) -/
theorem c9_dangling_track_skipped (base : ParadeState) (t : JsNum)
    (pre post : List (String × AnimationTrack)) (oid : String) (tr : AnimationTrack)
    (hsplit : base.tracks = pre ++ (oid, tr) :: post)
    (hskip : tr.actions = [] ∨
      ((∀ e ∈ base.entities, e.id ≠ oid) ∧ ∀ p ∈ base.groups, p.1 ≠ oid)) :
    getParadeStateAtTime base t =
      getParadeStateAtTime { base with tracks := pre ++ post } t := by
  rw [getParadeStateAtTime, getParadeStateAtTime, hsplit]
  dsimp only
  congr 1
  rw [List.foldl_append, List.foldl_append, List.foldl_cons]
  congr 1
  apply processTrack_skip
  rcases hskip with h | ⟨hent, hgrp⟩
  · exact Or.inl h
  · refine Or.inr ⟨?_, hgrp⟩
    intro u hu
    have hids : u.id ∈ (List.foldl (processTrack base.groups t) (base.entities.map (fun e =>
        { e with x := sanitize e.x, y := sanitize e.y, rotation := sanitize e.rotation }))
          pre).map (fun w => w.id) := List.mem_map_of_mem _ hu
    rw [foldl_processTrack_map_id, List.map_map] at hids
    rw [List.mem_map] at hids
    obtain ⟨v, hv, hvid⟩ := hids
    rw [← hvid]
    exact hent v hv

/-- C9 witness base: one entity, one dangling track (owner `"ghost"`). -/
def c9wBase : ParadeState :=
  { entities := [c3wEnt],
    groups := [],
    tracks := [("ghost", { actions := [
      { id := "m1", type := .MOVE, startTime := .fin 0, duration := .fin 1,
        payload := { targetX := some (.fin 9), targetY := some (.fin 9) } }] })] }

/-- C9 witness: removing the dangling track of `c9wBase` does not change
the evaluation at t = 1. -/
theorem c9_dangling_track_skipped_witness :
    c9wBase.tracks = [] ++ ("ghost", { actions := [
      { id := "m1", type := .MOVE, startTime := .fin 0, duration := .fin 1,
        payload := { targetX := some (.fin 9), targetY := some (.fin 9) } }] }) :: [] ∧
    (∀ e ∈ c9wBase.entities, e.id ≠ "ghost") ∧
    getParadeStateAtTime c9wBase (.fin 1) =
      getParadeStateAtTime { c9wBase with tracks := [] ++ [] } (.fin 1) := by
  have h1 : c9wBase.tracks = [] ++ ("ghost", { actions := [
      { id := "m1", type := .MOVE, startTime := .fin 0, duration := .fin 1,
        payload := { targetX := some (.fin 9), targetY := some (.fin 9) } }] }) :: [] := rfl
  have h2 : ∀ e ∈ c9wBase.entities, e.id ≠ "ghost" := by
    intro e he
    rw [c9wBase] at he
    simp only [List.mem_cons, List.not_mem_nil, or_false] at he
    subst he
    simp [c3wEnt]
  have h3 : ∀ p ∈ c9wBase.groups, p.1 ≠ "ghost" := by
    intro p hp
    rw [c9wBase] at hp
    simp at hp
  exact ⟨h1, h2, c9_dangling_track_skipped c9wBase (.fin 1) [] [] "ghost" _ h1
    (Or.inr ⟨h2, h3⟩)⟩

/-- C8 witness: duration 0, start 0, queried at t = 1. -/
theorem c8_nonpositive_duration_witness :
    ((0 : ℝ) ≤ 0 ∧ (0 : ℝ) + 0.001 ≤ 1) ∧
    (effDuration (.fin 0) = .fin 0.001 ∧ (0 : ℝ) < 0.001 ∧
    jltb (.fin 1) (.fin 0) = false ∧
    jmax (.fin 0) (jmin (.fin 1) (jdiv (jsub (.fin 1) (.fin 0)) (effDuration (.fin 0)))) =
      .fin 1 ∧
    jmin (.fin 1) (jmax (.fin 0) (jdiv (jsub (.fin 1) (.fin 0)) (effDuration (.fin 0)))) =
      .fin 1) :=
  ⟨⟨le_refl 0, by norm_num⟩, c8_nonpositive_duration 0 0 1 (le_refl 0) (by norm_num)⟩

/-! ## C4: rigidity of group transforms -/

/-- A member coordinate during group evaluation is a finite real or NaN
(infinities never arise from the sanitized seeds). -/
def FinOrNan (v : JsNum) : Prop := (∃ x : ℝ, v = .fin x) ∨ v = .nan

/-- All member positions are finite-or-NaN. -/
def MsOk (ms : List (String × MemberSt)) : Prop :=
  ∀ p ∈ ms, FinOrNan p.2.x ∧ FinOrNan p.2.y

/-- The shape of one group action on a member state: a uniform finite
translation, a position-preserving update, a rigid rotation about a finite
pivot, or a collapse of every position to NaN. -/
def GoodStep (g : MemberSt → MemberSt) : Prop :=
  (∃ dx dy : ℝ, ∀ s, (g s).x = jadd s.x (.fin dx) ∧ (g s).y = jadd s.y (.fin dy)) ∨
  (∀ s, (g s).x = s.x ∧ (g s).y = s.y) ∨
  (∃ px py c sn : ℝ, c ^ 2 + sn ^ 2 = 1 ∧ ∀ s,
      (g s).x = jadd (.fin px) (jsub (jmul (jsub s.x (.fin px)) (.fin c))
        (jmul (jsub s.y (.fin py)) (.fin sn))) ∧
      (g s).y = jadd (.fin py) (jadd (jmul (jsub s.x (.fin px)) (.fin sn))
        (jmul (jsub s.y (.fin py)) (.fin c)))) ∨
  (∀ s, (g s).x = .nan ∧ (g s).y = .nan)

/-- NaN positions stay NaN under any group action shape. -/
def NanStable (g : MemberSt → MemberSt) : Prop :=
  ∀ s : MemberSt, s.x = .nan → s.y = .nan → (g s).x = .nan ∧ (g s).y = .nan

/-- A pair of finite positions is mapped to a pair of finite positions at the
same squared distance, or both collapse to NaN. -/
def PairMono (g : MemberSt → MemberSt) : Prop :=
  ∀ (s1 s2 : MemberSt) (x1 y1 x2 y2 : ℝ),
    s1.x = .fin x1 → s1.y = .fin y1 → s2.x = .fin x2 → s2.y = .fin y2 →
    (∃ a1 b1 a2 b2 : ℝ,
      (g s1).x = .fin a1 ∧ (g s1).y = .fin b1 ∧
      (g s2).x = .fin a2 ∧ (g s2).y = .fin b2 ∧
      (a1 - a2) ^ 2 + (b1 - b2) ^ 2 = (x1 - x2) ^ 2 + (y1 - y2) ^ 2) ∨
    ((g s1).x = .nan ∧ (g s1).y = .nan ∧ (g s2).x = .nan ∧ (g s2).y = .nan)

theorem GoodStep.nanStable {g : MemberSt → MemberSt} (h : GoodStep g) : NanStable g := by
  intro s hx hy
  rcases h with ⟨dx, dy, h⟩ | h | ⟨px, py, c, sn, _, h⟩ | h
  · obtain ⟨h1, h2⟩ := h s
    rw [h1, h2, hx, hy]
    simp
  · obtain ⟨h1, h2⟩ := h s
    rw [h1, h2, hx, hy]
    exact ⟨rfl, rfl⟩
  · obtain ⟨h1, h2⟩ := h s
    rw [h1, h2, hx, hy]
    simp
  · exact h s

theorem GoodStep.pairMono {g : MemberSt → MemberSt} (h : GoodStep g) : PairMono g := by
  intro s1 s2 x1 y1 x2 y2 hx1 hy1 hx2 hy2
  rcases h with ⟨dx, dy, h⟩ | h | ⟨px, py, c, sn, hcs, h⟩ | h
  · obtain ⟨h11, h12⟩ := h s1
    obtain ⟨h21, h22⟩ := h s2
    rw [h11, h12, h21, h22, hx1, hy1, hx2, hy2]
    refine Or.inl ⟨x1 + dx, y1 + dy, x2 + dx, y2 + dy, by simp, by simp, by simp, by simp, ?_⟩
    ring
  · obtain ⟨h11, h12⟩ := h s1
    obtain ⟨h21, h22⟩ := h s2
    rw [h11, h12, h21, h22, hx1, hy1, hx2, hy2]
    exact Or.inl ⟨x1, y1, x2, y2, rfl, rfl, rfl, rfl, rfl⟩
  · obtain ⟨h11, h12⟩ := h s1
    obtain ⟨h21, h22⟩ := h s2
    rw [h11, h12, h21, h22, hx1, hy1, hx2, hy2]
    refine Or.inl ⟨px + ((x1 + -px) * c - (y1 + -py) * sn),
      py + ((x1 + -px) * sn + (y1 + -py) * c),
      px + ((x2 + -px) * c - (y2 + -py) * sn),
      py + ((x2 + -px) * sn + (y2 + -py) * c), ?_, ?_, ?_, ?_, ?_⟩
    · simp [jsub, jadd, jneg, jmul]
      try ring
    · simp [jsub, jadd, jneg, jmul]
      try ring
    · simp [jsub, jadd, jneg, jmul]
      try ring
    · simp [jsub, jadd, jneg, jmul]
      try ring
    · linear_combination ((x1 - x2) ^ 2 + (y1 - y2) ^ 2) * hcs
  · obtain ⟨h11, h12⟩ := h s1
    obtain ⟨h21, h22⟩ := h s2
    exact Or.inr ⟨h11, h12, h21, h22⟩

@[simp] theorem jmin_nan_left (a : JsNum) : jmin .nan a = .nan := by cases a <;> rfl
@[simp] theorem jmin_nan_right (a : JsNum) : jmin a .nan = .nan := by cases a <;> rfl
@[simp] theorem jmax_nan_left (a : JsNum) : jmax .nan a = .nan := by cases a <;> rfl
@[simp] theorem jmax_nan_right (a : JsNum) : jmax a .nan = .nan := by cases a <;> rfl

/-- Folding `Math.min` from NaN stays NaN. -/
theorem foldl_jmin_nan (xs : List JsNum) : xs.foldl jmin .nan = .nan := by
  induction xs with
  | nil => rfl
  | cons v xs ih => rw [List.foldl_cons, jmin_nan_left, ih]

/-- Folding `Math.max` from NaN stays NaN. -/
theorem foldl_jmax_nan (xs : List JsNum) : xs.foldl jmax .nan = .nan := by
  induction xs with
  | nil => rfl
  | cons v xs ih => rw [List.foldl_cons, jmax_nan_left, ih]

/-- From a finite accumulator, the min/max folds over finite-or-NaN values
yield finite values, or NaN for both. -/
theorem foldl_jminmax_fin (xs : List JsNum) (h : ∀ v ∈ xs, FinOrNan v) :
    ∀ a b : ℝ,
      ((∃ a', xs.foldl jmin (.fin a) = .fin a') ∧ ∃ b', xs.foldl jmax (.fin b) = .fin b') ∨
      (xs.foldl jmin (.fin a) = .nan ∧ xs.foldl jmax (.fin b) = .nan) := by
  induction xs with
  | nil => exact fun a b => Or.inl ⟨⟨a, rfl⟩, ⟨b, rfl⟩⟩
  | cons v xs ih =>
    intro a b
    rcases h v (by simp) with ⟨f, rfl⟩ | rfl
    · rw [List.foldl_cons, List.foldl_cons, jmin_fin, jmax_fin]
      exact ih (fun w hw => h w (by simp [hw])) _ _
    · rw [List.foldl_cons, List.foldl_cons, jmin_nan_right, jmax_nan_right,
        foldl_jmin_nan, foldl_jmax_nan]
      exact Or.inr ⟨rfl, rfl⟩

/-- A nonempty min/max fold pair over finite-or-NaN values is finite-finite or
NaN-NaN. -/
theorem foldl_jminmax_start (xs : List JsNum) (h : ∀ v ∈ xs, FinOrNan v)
    (hne : xs ≠ []) :
    ((∃ a', xs.foldl jmin (.inf false) = .fin a') ∧
      ∃ b', xs.foldl jmax (.inf true) = .fin b') ∨
    (xs.foldl jmin (.inf false) = .nan ∧ xs.foldl jmax (.inf true) = .nan) := by
  cases xs with
  | nil => exact absurd rfl hne
  | cons v xs =>
    rcases h v (by simp) with ⟨f, rfl⟩ | rfl
    · rw [List.foldl_cons, List.foldl_cons, jmin_posinf_fin, jmax_neginf_fin]
      exact foldl_jminmax_fin xs (fun w hw => h w (by simp [hw])) f f
    · rw [List.foldl_cons, List.foldl_cons]
      rw [show jmin (.inf false) .nan = .nan from rfl, show jmax (.inf true) .nan = .nan from rfl]
      rw [foldl_jmin_nan, foldl_jmax_nan]
      exact Or.inr ⟨rfl, rfl⟩

/-- The WHEEL bounding box of a nonempty finite-or-NaN member map: min/max x
are finite, min/max y are finite or NaN. -/
theorem groupWheelBox_ok {ms : List (String × MemberSt)} (hok : MsOk ms)
    (hne : ms ≠ []) :
    (∃ a, (groupWheelBox ms).1 = .fin a) ∧ (∃ a, (groupWheelBox ms).2.1 = .fin a) ∧
    FinOrNan (groupWheelBox ms).2.2.1 ∧ FinOrNan (groupWheelBox ms).2.2.2 := by
  have hx : ∀ v ∈ ms.map (fun p => p.2.x), FinOrNan v := by
    intro v hv
    rw [List.mem_map] at hv
    obtain ⟨p, hp, rfl⟩ := hv
    exact (hok p hp).1
  have hy : ∀ v ∈ ms.map (fun p => p.2.y), FinOrNan v := by
    intro v hv
    rw [List.mem_map] at hv
    obtain ⟨p, hp, rfl⟩ := hv
    exact (hok p hp).2
  have hnex : ms.map (fun p => p.2.x) ≠ [] := by
    simp [hne]
  have hney : ms.map (fun p => p.2.y) ≠ [] := by
    simp [hne]
  have ex : ms.foldl (fun acc p => jmin acc p.2.x) (.inf false) =
      (ms.map (fun p => p.2.x)).foldl jmin (.inf false) := by
    rw [List.foldl_map]
  have ex2 : ms.foldl (fun acc p => jmax acc p.2.x) (.inf true) =
      (ms.map (fun p => p.2.x)).foldl jmax (.inf true) := by
    rw [List.foldl_map]
  have ey : ms.foldl (fun acc p => jmin acc p.2.y) (.inf false) =
      (ms.map (fun p => p.2.y)).foldl jmin (.inf false) := by
    rw [List.foldl_map]
  have ey2 : ms.foldl (fun acc p => jmax acc p.2.y) (.inf true) =
      (ms.map (fun p => p.2.y)).foldl jmax (.inf true) := by
    rw [List.foldl_map]
  rw [groupWheelBox, ex, ex2, ey, ey2]
  rcases foldl_jminmax_start _ hx hnex with ⟨⟨a, ha⟩, ⟨b, hb⟩⟩ | ⟨ha, hb⟩
  · rw [ha, hb]
    simp only [jIsFinite_fin, Bool.not_true, Bool.false_eq_true, if_neg, not_false_iff]
    refine ⟨⟨a, rfl⟩, ⟨b, rfl⟩, ?_, ?_⟩
    · rcases foldl_jminmax_start _ hy hney with ⟨⟨c, hc⟩, _⟩ | ⟨hc, _⟩
      · rw [hc]; exact Or.inl ⟨c, rfl⟩
      · rw [hc]; exact Or.inr rfl
    · rcases foldl_jminmax_start _ hy hney with ⟨_, ⟨d, hd⟩⟩ | ⟨_, hd⟩
      · rw [hd]; exact Or.inl ⟨d, rfl⟩
      · rw [hd]; exact Or.inr rfl
  · rw [ha]
    simp only [jIsFinite_nan, Bool.not_false, if_pos]
    exact ⟨⟨0, rfl⟩, ⟨0, rfl⟩, Or.inl ⟨0, rfl⟩, Or.inl ⟨0, rfl⟩⟩

/-- The WHEEL pivot of a nonempty finite-or-NaN member map has a finite x and
a finite-or-NaN y. -/
theorem wheelPivot_ok {ms : List (String × MemberSt)} (hok : MsOk ms) (hne : ms ≠ [])
    (pc : Option PivotCorner) :
    (∃ px, (wheelPivot pc (groupWheelBox ms).1 (groupWheelBox ms).2.1
      (groupWheelBox ms).2.2.1 (groupWheelBox ms).2.2.2).1 = .fin px) ∧
    FinOrNan (wheelPivot pc (groupWheelBox ms).1 (groupWheelBox ms).2.1
      (groupWheelBox ms).2.2.1 (groupWheelBox ms).2.2.2).2 := by
  obtain ⟨⟨a, ha⟩, ⟨b, hb⟩, hc, hd⟩ := groupWheelBox_ok hok hne
  have hdivnan : jdiv .nan (.fin 2) = .nan := rfl
  have hmidy : FinOrNan (jdiv (jadd (groupWheelBox ms).2.2.1 (groupWheelBox ms).2.2.2)
      (.fin 2)) := by
    rcases hc with ⟨c, hc⟩ | hc <;> rcases hd with ⟨d, hd⟩ | hd
    · rw [hc, hd, jadd_fin]
      exact Or.inl ⟨(c + d) / 2, jdiv_fin_of_ne _ (by norm_num)⟩
    · rw [hc, hd, jadd_nan_right, hdivnan]
      exact Or.inr rfl
    · rw [hc, hd, jadd_nan_left, hdivnan]
      exact Or.inr rfl
    · rw [hc, hd, jadd_nan_left, hdivnan]
      exact Or.inr rfl
  rcases pc with _ | pc
  · exact ⟨⟨a, by simp [wheelPivot, ha]⟩, by simp [wheelPivot]; exact hc⟩
  cases pc
  · exact ⟨⟨a, by simp [wheelPivot, ha]⟩, by simp [wheelPivot]; exact hc⟩
  · exact ⟨⟨b, by simp [wheelPivot, hb]⟩, by simp [wheelPivot]; exact hc⟩
  · exact ⟨⟨a, by simp [wheelPivot, ha]⟩, by simp [wheelPivot]; exact hd⟩
  · exact ⟨⟨b, by simp [wheelPivot, hb]⟩, by simp [wheelPivot]; exact hd⟩
  · refine ⟨⟨(a + b) / 2, ?_⟩, ?_⟩
    · simp [wheelPivot, ha, hb]
    · simpa [wheelPivot] using hmidy

/-- The WHEEL member update is a rigid rotation about the pivot when the pivot
and the angle in radians are finite, and sends every position to NaN
otherwise. -/
theorem wheelShift_goodStep (pivotX pivotY rad angle progress : JsNum)
    (hpx : ∃ px : ℝ, pivotX = .fin px) (hpy : FinOrNan pivotY) :
    GoodStep (wheelShift pivotX pivotY (jcos rad) (jsin rad) angle progress) := by
  obtain ⟨px, rfl⟩ := hpx
  rcases hpy with ⟨py, rfl⟩ | rfl
  · cases rad with
    | fin r =>
      refine Or.inr (Or.inr (Or.inl ⟨px, py, Real.cos r, Real.sin r,
        Real.cos_sq_add_sin_sq r, fun s => ⟨rfl, rfl⟩⟩))
    | inf b =>
      refine Or.inr (Or.inr (Or.inr (fun s => ⟨?_, ?_⟩))) <;>
        simp [wheelShift, jcos, jsin]
    | nan =>
      refine Or.inr (Or.inr (Or.inr (fun s => ⟨?_, ?_⟩))) <;>
        simp [wheelShift, jcos, jsin]
  · refine Or.inr (Or.inr (Or.inr (fun s => ⟨?_, ?_⟩))) <;>
      simp [wheelShift]

/-- Every group action on a nonempty finite-or-NaN member map is a key- and
order-preserving map of the member values by a `GoodStep` function. -/
theorem applyGroupAction_goodStep (time : JsNum) (a : AnimationAction)
    (ms : List (String × MemberSt)) (hok : MsOk ms) (hne : ms ≠ []) :
    ∃ g : MemberSt → MemberSt,
      applyGroupAction time a ms = ms.map (fun p => (p.1, g p.2)) ∧ GoodStep g := by
  obtain ⟨i, ty, st, du, pl⟩ := a
  cases ty with
  | MOVE =>
    simp only [applyGroupAction]
    split
    · next hgd =>
      rw [Bool.and_eq_true] at hgd
      obtain ⟨dx, hdx⟩ := jIsFinite_iff.mp hgd.1
      obtain ⟨dy, hdy⟩ := jIsFinite_iff.mp hgd.2
      refine ⟨moveShift _ _, rfl, ?_⟩
      rw [hdx, hdy]
      exact Or.inl ⟨dx, dy, fun s => ⟨rfl, rfl⟩⟩
    · exact ⟨id, by simp, Or.inr (Or.inl (fun s => ⟨rfl, rfl⟩))⟩
  | TURN =>
    simp only [applyGroupAction]
    split
    · exact ⟨turnShift _, rfl, Or.inr (Or.inl (fun s => ⟨rfl, rfl⟩))⟩
    · exact ⟨id, by simp, Or.inr (Or.inl (fun s => ⟨rfl, rfl⟩))⟩
  | WHEEL =>
    simp only [applyGroupAction]
    refine ⟨wheelShift _ _ _ _ _ _, rfl, ?_⟩
    exact wheelShift_goodStep _ _ _ _ _ (wheelPivot_ok hok hne pl.pivotCorner).1
      (wheelPivot_ok hok hne pl.pivotCorner).2

/-- A `GoodStep` map preserves the finite-or-NaN invariant. -/
theorem GoodStep.msOk {g : MemberSt → MemberSt} (hg : GoodStep g)
    {ms : List (String × MemberSt)} (hok : MsOk ms) :
    MsOk (ms.map (fun p => (p.1, g p.2))) := by
  intro p hp
  rw [List.mem_map] at hp
  obtain ⟨q, hq, rfl⟩ := hp
  obtain ⟨hx, hy⟩ := hok q hq
  dsimp only
  rcases hg with ⟨dx, dy, h⟩ | h | ⟨px, py, c, sn, _, h⟩ | h
  · obtain ⟨h1, h2⟩ := h q.2
    rw [h1, h2]
    constructor
    · rcases hx with ⟨x0, hx0⟩ | hx0 <;> rw [hx0]
      · exact Or.inl ⟨x0 + dx, rfl⟩
      · exact Or.inr (by simp)
    · rcases hy with ⟨y0, hy0⟩ | hy0 <;> rw [hy0]
      · exact Or.inl ⟨y0 + dy, rfl⟩
      · exact Or.inr (by simp)
  · obtain ⟨h1, h2⟩ := h q.2
    rw [h1, h2]
    exact ⟨hx, hy⟩
  · obtain ⟨h1, h2⟩ := h q.2
    rw [h1, h2]
    rcases hx with ⟨x0, hx0⟩ | hx0 <;> rcases hy with ⟨y0, hy0⟩ | hy0 <;> rw [hx0, hy0]
    · constructor
      · exact Or.inl ⟨px + ((x0 + -px) * c - (y0 + -py) * sn), by simp [jsub, jadd, jneg, jmul]; try ring⟩
      · exact Or.inl ⟨py + ((x0 + -px) * sn + (y0 + -py) * c), by simp [jsub, jadd, jneg, jmul]; try ring⟩
    · exact ⟨Or.inr (by simp), Or.inr (by simp)⟩
    · exact ⟨Or.inr (by simp), Or.inr (by simp)⟩
    · exact ⟨Or.inr (by simp), Or.inr (by simp)⟩
  · obtain ⟨h1, h2⟩ := h q.2
    rw [h1, h2]
    exact ⟨Or.inr rfl, Or.inr rfl⟩

/-- The whole group action loop on a nonempty finite-or-NaN member map is a
key-preserving value map whose function preserves pairwise squared distances
of finite pairs (or collapses them to NaN), and is NaN-stable. -/
theorem runGroupActions_rigid (time : JsNum) (acts : List AnimationAction) :
    ∀ ms : List (String × MemberSt), MsOk ms → ms ≠ [] →
    ∃ g : MemberSt → MemberSt,
      runGroupActions time acts ms = ms.map (fun p => (p.1, g p.2)) ∧
      PairMono g ∧ NanStable g := by
  induction acts with
  | nil =>
    intro ms _ _
    refine ⟨id, by simp [runGroupActions], ?_, ?_⟩
    · intro s1 s2 x1 y1 x2 y2 hx1 hy1 hx2 hy2
      exact Or.inl ⟨x1, y1, x2, y2, hx1, hy1, hx2, hy2, rfl⟩
    · intro s hx hy
      exact ⟨hx, hy⟩
  | cons a rest ih =>
    intro ms hok hne
    rw [runGroupActions]
    split
    · refine ⟨id, by simp, ?_, ?_⟩
      · intro s1 s2 x1 y1 x2 y2 hx1 hy1 hx2 hy2
        exact Or.inl ⟨x1, y1, x2, y2, hx1, hy1, hx2, hy2, rfl⟩
      · intro s hx hy
        exact ⟨hx, hy⟩
    · obtain ⟨g1, hg1eq, hg1⟩ := applyGroupAction_goodStep time a ms hok hne
      have hok1 : MsOk (applyGroupAction time a ms) := by
        rw [hg1eq]
        exact hg1.msOk hok
      have hne1 : applyGroupAction time a ms ≠ [] := by
        rw [hg1eq]
        simp [hne]
      obtain ⟨g2, hg2eq, hg2pm, hg2ns⟩ := ih (applyGroupAction time a ms) hok1 hne1
      refine ⟨fun s => g2 (g1 s), ?_, ?_, ?_⟩
      · rw [hg2eq, hg1eq, List.map_map]
        rfl
      · intro s1 s2 x1 y1 x2 y2 hx1 hy1 hx2 hy2
        rcases hg1.pairMono s1 s2 x1 y1 x2 y2 hx1 hy1 hx2 hy2 with
          ⟨a1, b1, a2, b2, h1, h2, h3, h4, hd⟩ | ⟨h1, h2, h3, h4⟩
        · rcases hg2pm (g1 s1) (g1 s2) a1 b1 a2 b2 h1 h2 h3 h4 with
            ⟨a1', b1', a2', b2', k1, k2, k3, k4, kd⟩ | ⟨k1, k2, k3, k4⟩
          · exact Or.inl ⟨a1', b1', a2', b2', k1, k2, k3, k4, by rw [kd, hd]⟩
          · exact Or.inr ⟨k1, k2, k3, k4⟩
        · obtain ⟨k1, k2⟩ := hg2ns (g1 s1) h1 h2
          obtain ⟨k3, k4⟩ := hg2ns (g1 s2) h3 h4
          exact Or.inr ⟨k1, k2, k3, k4⟩
      · intro s hx hy
        obtain ⟨h1, h2⟩ := hg1.nanStable s hx hy
        exact hg2ns (g1 s) h1 h2

/-- Function `sanitize` output is always finite-or-NaN (in fact finite). -/
theorem sanitize_fon (v : JsNum) : FinOrNan (sanitize v) := by
  cases v with
  | fin x => exact Or.inl ⟨x, rfl⟩
  | inf b => exact Or.inl ⟨0, rfl⟩
  | nan => exact Or.inl ⟨0, rfl⟩

/-- The C4 wheel action: WHEEL 90 degrees about the formation CENTER in 1s. -/
def wheelAct : AnimationAction :=
  { id := "w", type := .WHEEL, startTime := .fin 0, duration := .fin 1,
    payload := { wheelAngle := some (.fin 90), pivotCorner := some .CENTER } }

/-- First member of the C4 wheel instance, at (0, 0). -/
def wm1 : Entity :=
  { id := "m1", label := "", x := .fin 0, y := .fin 0, rotation := .fin 0,
    groupId := some "g" }

/-- Second member of the C4 wheel instance, at (2, 0). -/
def wm2 : Entity :=
  { id := "m2", label := "", x := .fin 2, y := .fin 0, rotation := .fin 0,
    groupId := some "g" }

/-- C4.  Rigidity of group tracks.  General part: for any entity list with
pairwise-distinct ids, any group track (any action list: MOVE, TURN and WHEEL
in any combination, with arbitrary payloads) and any query time, the group
transform maps any two members with finite base positions to finite positions
at exactly the same squared Euclidean distance (MOVE translates all members by
one uniform delta, TURN leaves positions unchanged, WHEEL rotates rigidly
about one pivot; non-finite intermediate results collapse uniformly and the
write-back guards then restore the base positions).  Concrete part: two
members at (0,0) and (2,0) under WHEEL {wheelAngle 90, pivotCorner CENTER,
duration 1} end at (1,-1) and (1,1) at t = 1 — distance √4 = 2 unchanged —
with each member's rotation increased by exactly 90. -/
theorem c4_group_rigidity :
    (∀ (es : List Entity) (gid : String) (acts : List AnimationAction) (time : JsNum)
      (i j : ℕ) (e1 e2 : Entity),
      (es.map (fun u => u.id)).Nodup →
      es[i]? = some e1 → es[j]? = some e2 →
      e1.groupId = some gid → e2.groupId = some gid →
      ∀ (x1 y1 x2 y2 : ℝ),
      e1.x = .fin x1 → e1.y = .fin y1 → e2.x = .fin x2 → e2.y = .fin y2 →
      ∃ f1 f2 : Entity,
        (applyGroupTransform es gid acts time)[i]? = some f1 ∧
        (applyGroupTransform es gid acts time)[j]? = some f2 ∧
        ∃ a1 b1 a2 b2 : ℝ,
          f1.x = .fin a1 ∧ f1.y = .fin b1 ∧ f2.x = .fin a2 ∧ f2.y = .fin b2 ∧
          (a1 - a2) ^ 2 + (b1 - b2) ^ 2 = (x1 - x2) ^ 2 + (y1 - y2) ^ 2) ∧
    (applyGroupTransform [wm1, wm2] "g" [wheelAct] (.fin 1) =
      [{ wm1 with x := .fin 1, y := .fin (-1), rotation := .fin 90 },
       { wm2 with x := .fin 1, y := .fin 1, rotation := .fin 90 }] ∧
     Real.sqrt (((1 : ℝ) - 1) ^ 2 + ((-1 : ℝ) - 1) ^ 2) = 2 ∧
     ((1 : ℝ) - 1) ^ 2 + ((-1 : ℝ) - 1) ^ 2 = ((0 : ℝ) - 2) ^ 2 + ((0 : ℝ) - 0) ^ 2) := by
  constructor
  · intro es gid acts time i j e1 e2 hnd hi hj hg1 hg2 x1 y1 x2 y2 hx1 hy1 hx2 hy2
    have hm1 : e1 ∈ es := List.getElem?_mem hi
    have hm2 : e2 ∈ es := List.getElem?_mem hj
    have hmem1 : e1 ∈ es.filter (fun u => u.groupId = some gid) :=
      List.mem_filter.mpr ⟨hm1, by simp [hg1]⟩
    have hmem2 : e2 ∈ es.filter (fun u => u.groupId = some gid) :=
      List.mem_filter.mpr ⟨hm2, by simp [hg2]⟩
    have hndm : ((es.filter (fun u => u.groupId = some gid)).map (fun u => u.id)).Nodup :=
      List.Nodup.sublist (List.Sublist.map _ (List.filter_sublist es)) hnd
    have hnemem : es.filter (fun u => u.groupId = some gid) ≠ [] :=
      List.ne_nil_of_mem hmem1
    have hemp : ¬ ((es.filter (fun u => u.groupId = some gid)).isEmpty = true) := by
      rw [List.isEmpty_iff]
      exact hnemem
    have hseeds : (es.filter (fun u => u.groupId = some gid)).foldl
        (fun m e => msSet m e.id
          { x := sanitize e.x, y := sanitize e.y, rot := sanitize e.rotation }) [] =
        (es.filter (fun u => u.groupId = some gid)).map (fun u =>
          (u.id, ({ x := sanitize u.x, y := sanitize u.y, rot := sanitize u.rotation } :
            MemberSt))) := by
      rw [foldl_msSet_eq_map _ _ [] hndm (by simp), List.nil_append]
    have hok : MsOk ((es.filter (fun u => u.groupId = some gid)).map (fun u =>
        (u.id, ({ x := sanitize u.x, y := sanitize u.y, rot := sanitize u.rotation } :
          MemberSt)))) := by
      intro p hp
      rw [List.mem_map] at hp
      obtain ⟨u, _, rfl⟩ := hp
      exact ⟨sanitize_fon u.x, sanitize_fon u.y⟩
    have hnes : (es.filter (fun u => u.groupId = some gid)).map (fun u =>
        (u.id, ({ x := sanitize u.x, y := sanitize u.y, rot := sanitize u.rotation } :
          MemberSt))) ≠ [] := by
      simp [hnemem]
    obtain ⟨g, hgeq, hgpm, _⟩ := runGroupActions_rigid time acts _ hok hnes
    have hfinal : runGroupActions time acts
        ((es.filter (fun u => u.groupId = some gid)).map (fun u =>
          (u.id, ({ x := sanitize u.x, y := sanitize u.y, rot := sanitize u.rotation } :
            MemberSt)))) =
        (es.filter (fun u => u.groupId = some gid)).map (fun u =>
          (u.id, g { x := sanitize u.x, y := sanitize u.y, rot := sanitize u.rotation })) := by
      rw [hgeq, List.map_map]
      rfl
    have hget1 : msGet (runGroupActions time acts
        ((es.filter (fun u => u.groupId = some gid)).map (fun u =>
          (u.id, ({ x := sanitize u.x, y := sanitize u.y, rot := sanitize u.rotation } :
            MemberSt))))) e1.id =
        some (g { x := sanitize e1.x, y := sanitize e1.y, rot := sanitize e1.rotation }) := by
      rw [hfinal]
      exact msGet_map_of_nodup _ _ e1 hndm hmem1
    have hget2 : msGet (runGroupActions time acts
        ((es.filter (fun u => u.groupId = some gid)).map (fun u =>
          (u.id, ({ x := sanitize u.x, y := sanitize u.y, rot := sanitize u.rotation } :
            MemberSt))))) e2.id =
        some (g { x := sanitize e2.x, y := sanitize e2.y, rot := sanitize e2.rotation }) := by
      rw [hfinal]
      exact msGet_map_of_nodup _ _ e2 hndm hmem2
    have hs1x : ({ x := sanitize e1.x, y := sanitize e1.y, rot := sanitize e1.rotation } :
        MemberSt).x = .fin x1 := by
      show sanitize e1.x = JsNum.fin x1
      rw [hx1]
      exact sanitize_fin x1
    have hs1y : ({ x := sanitize e1.x, y := sanitize e1.y, rot := sanitize e1.rotation } :
        MemberSt).y = .fin y1 := by
      show sanitize e1.y = JsNum.fin y1
      rw [hy1]
      exact sanitize_fin y1
    have hs2x : ({ x := sanitize e2.x, y := sanitize e2.y, rot := sanitize e2.rotation } :
        MemberSt).x = .fin x2 := by
      show sanitize e2.x = JsNum.fin x2
      rw [hx2]
      exact sanitize_fin x2
    have hs2y : ({ x := sanitize e2.x, y := sanitize e2.y, rot := sanitize e2.rotation } :
        MemberSt).y = .fin y2 := by
      show sanitize e2.y = JsNum.fin y2
      rw [hy2]
      exact sanitize_fin y2
    simp only [applyGroupTransform]
    rw [if_neg hemp, hseeds]
    rw [List.getElem?_map, List.getElem?_map, hi, hj, Option.map_some', Option.map_some']
    refine ⟨_, _, rfl, rfl, ?_⟩
    dsimp only
    rw [if_pos hg1, if_pos hg2, hget1, hget2]
    rcases hgpm _ _ x1 y1 x2 y2 hs1x hs1y hs2x hs2y with
      ⟨a1, b1, a2, b2, k1, k2, k3, k4, kd⟩ | ⟨k1, k2, k3, k4⟩
    · refine ⟨a1, b1, a2, b2, ?_, ?_, ?_, ?_, kd⟩ <;> dsimp only
      · rw [k1]; simp
      · rw [k2]; simp
      · rw [k3]; simp
      · rw [k4]; simp
    · refine ⟨x1, y1, x2, y2, ?_, ?_, ?_, ?_, rfl⟩ <;> dsimp only
      · rw [k1]; simp [hx1]
      · rw [k2]; simp [hy1]
      · rw [k3]; simp [hx2]
      · rw [k4]; simp [hy2]
  · refine ⟨?_, ?_, by norm_num⟩
    · have hrad : (90 : ℝ) * (Real.pi / 180) * 1 = Real.pi / 2 := by ring
      simp [applyGroupTransform, wm1, wm2, wheelAct, runGroupActions, applyGroupAction,
        groupWheelBox, wheelPivot, wheelShift, wheelAngleOf, effDuration, msSet, msGet]
      norm_num [hrad, Real.cos_pi_div_two, Real.sin_pi_div_two, msGet]
      simp
    · rw [show ((1 : ℝ) - 1) ^ 2 + ((-1 : ℝ) - 1) ^ 2 = 2 ^ 2 by norm_num]
      exact Real.sqrt_sq (by norm_num)

/-- C4 witness: the general rigidity statement instantiated on the
two-member wheel formation at t = 1. -/
theorem c4_group_rigidity_witness :
    (([wm1, wm2].map (fun u => u.id)).Nodup ∧
      [wm1, wm2][0]? = some wm1 ∧ [wm1, wm2][1]? = some wm2 ∧
      wm1.groupId = some "g" ∧ wm2.groupId = some "g" ∧
      wm1.x = JsNum.fin 0 ∧ wm1.y = JsNum.fin 0 ∧
      wm2.x = JsNum.fin 2 ∧ wm2.y = JsNum.fin 0) ∧
    ∃ f1 f2 : Entity,
      (applyGroupTransform [wm1, wm2] "g" [wheelAct] (.fin 1))[0]? = some f1 ∧
      (applyGroupTransform [wm1, wm2] "g" [wheelAct] (.fin 1))[1]? = some f2 ∧
      ∃ a1 b1 a2 b2 : ℝ,
        f1.x = .fin a1 ∧ f1.y = .fin b1 ∧ f2.x = .fin a2 ∧ f2.y = .fin b2 ∧
        (a1 - a2) ^ 2 + (b1 - b2) ^ 2 = ((0 : ℝ) - 2) ^ 2 + ((0 : ℝ) - 0) ^ 2 := by
  have hnd : ([wm1, wm2].map (fun u => u.id)).Nodup := by simp [wm1, wm2]
  exact ⟨⟨hnd, rfl, rfl, rfl, rfl, rfl, rfl, rfl, rfl⟩,
    c4_group_rigidity.1 [wm1, wm2] "g" [wheelAct] (.fin 1) 0 1 wm1 wm2 hnd
      rfl rfl rfl rfl 0 0 2 0 rfl rfl rfl rfl⟩
